import Mathlib

/-!
A verification development for the component-organization core of KiCost
(`kicost/eda_tools/eda_tools.py`): sub-part splitting, quantity/code
decoding, identical-component grouping, group sorting and reference
collapsing.  Every definition is a shallow embedding of the corresponding
Python function; machine behaviour of string/regex/dict primitives is
spelled out explicitly.  Fallible code (Python `exit(...)` or uncaught
exceptions) is modelled with `Except String` / `Option`.
-/

set_option maxRecDepth 4000

/-! ## Python string primitives -/

/-- Python `\s` whitespace class (ASCII range, which is all the inputs use). -/
def isPySpace (c : Char) : Bool :=
  c = ' ' ∨ c = '\t' ∨ c = '\n' ∨ c = '\x0d' ∨ c = '\x0b' ∨ c = '\x0c'

/-- Python `str.strip()` on a character list: drop whitespace at both ends. -/
def pyStrip (l : List Char) : List Char :=
  ((l.dropWhile isPySpace).reverse.dropWhile isPySpace).reverse

/-- Python `str.strip()` on a `String`. -/
def pyStripStr (s : String) : String :=
  String.mk (pyStrip s.data)

/-- Python `str.lower()` on one character (ASCII range: every field name and
reference the tool handles is ASCII). -/
def pyLowerChar (c : Char) : Char :=
  if 'A' ≤ c ∧ c ≤ 'Z' then Char.ofNat (c.toNat + 32) else c

/-- Python `str.lower()`. -/
def pyLower (s : String) : String :=
  String.mk (s.data.map pyLowerChar)

/-- Python `c in s` for a single character (used for `SEPRTR not in k`,
`SEPRTR` being one character). -/
def strHasChar (s : String) (c : Char) : Bool :=
  s.data.contains c

/-- Python `<` on characters: compare code points. -/
def pyCharLt (a b : Char) : Bool :=
  a.toNat < b.toNat

/-- Python `<` on strings (also Lean's `String.lt`): lexicographic on code
points, a strict prefix being smaller. -/
def pyStrLtData : List Char → List Char → Bool
  | [], [] => false
  | [], _ :: _ => true
  | _ :: _, [] => false
  | a :: as, b :: bs =>
    if pyCharLt a b then true else if pyCharLt b a then false else pyStrLtData as bs

/-- See `pyStrLtData`. -/
def pyStrLt (s t : String) : Bool :=
  pyStrLtData s.data t.data

/--
One attempt of matching the separator pattern `\s*[;,]\s*` (parametrised by
the separator set) at the current position of the input: skip the leading
whitespace run, require a separator character, then greedily consume the
trailing whitespace run.  Returns the remainder after the match, or `none`
when no match starts here.  (The regex `\s*` before the separator can only
usefully consume the maximal whitespace run immediately preceding the
separator, because whitespace characters are not separators, so no real
backtracking arises.)
-/
def matchSep (seps : List Char) (l : List Char) : Option (List Char) :=
  match l.dropWhile isPySpace with
  | c :: rest => if c ∈ seps then some (rest.dropWhile isPySpace) else none
  | [] => none

/--
Embedding of `re.split` for the KiCost separator patterns `(?<!\\)\s*[;,]\s*` /
`(?<!\\)\s*[:]\s*`: scan left to right; at each position where the previous
character is not a backslash, try to match the separator pattern; on a match
emit the accumulated piece and continue after the match (the last consumed
character of a match is a separator or whitespace, never a backslash, so the
look-behind after a match always succeeds).  `fuel` bounds the recursion;
every step consumes at least one character, so `l.length + 1` is enough.
-/
def pySplitSepGo (seps : List Char) : Nat → List Char → Bool → List Char → List (List Char)
  | 0, acc, _, _ => [acc.reverse]
  | _ + 1, acc, _, [] => [acc.reverse]
  | fuel + 1, acc, prevBS, c :: rest =>
    if prevBS then
      pySplitSepGo seps fuel (c :: acc) (c = '\\') rest
    else
      match matchSep seps (c :: rest) with
      | some rem => acc.reverse :: pySplitSepGo seps fuel [] false rem
      | none => pySplitSepGo seps fuel (c :: acc) (c = '\\') rest

/-- Embedding of `re.split(r'(?<!\\)\s*[;,]\s*', s)`-style splitting on a character list. -/
def pySplitSep (seps : List Char) (l : List Char) : List (List Char) :=
  pySplitSepGo seps (l.length + 1) [] false l

/--
Embedding of `re.sub(ESC_FIND, r'\1', s)` with `ESC_FIND = r'\\\s*([;,:])\s*'`: each
backslash followed by (whitespace, a separator `; , :`, whitespace) is
replaced by the bare separator.  `fuel` bounds the recursion; each step
consumes at least one input character.
-/
def escRemoveGo : Nat → List Char → List Char
  | 0, l => l
  | _ + 1, [] => []
  | fuel + 1, c :: rest =>
    if c = '\\' then
      match rest.dropWhile isPySpace with
      | d :: rest' =>
        if d = ';' ∨ d = ',' ∨ d = ':' then d :: escRemoveGo fuel (rest'.dropWhile isPySpace)
        else c :: escRemoveGo fuel rest
      | [] => c :: escRemoveGo fuel rest
    else c :: escRemoveGo fuel rest

/-- Remove escape backslashes preceding `; , :` (KiCost `ESC_FIND` substitution). -/
def escRemove (l : List Char) : List Char :=
  escRemoveGo (l.length + 1) l

/--
Embedding of `re.match` against KiCost's number pattern
`^\s*[\-\+]?\s*[0-9]*\s*[\.\/]*\s*?[0-9]*\s*$`.  All the pieces are
sequential and draw from disjoint character classes, so greedy matching
needs no backtracking and the regex linearises to successive `dropWhile`s.
Note the pattern accepts the empty string (every piece is optional).
-/
def numFormatMatch (s : String) : Bool :=
  let l := s.data.dropWhile isPySpace
  let l := match l with
           | c :: rest => if c = '-' ∨ c = '+' then rest else c :: rest
           | [] => []
  let l := l.dropWhile isPySpace
  let l := l.dropWhile Char.isDigit
  let l := l.dropWhile isPySpace
  let l := l.dropWhile (fun c => c = '.' ∨ c = '/')
  let l := l.dropWhile isPySpace
  let l := l.dropWhile Char.isDigit
  let l := l.dropWhile isPySpace
  l.isEmpty

/-! ## `subpart_list` and `manf_code_qtypart` (quantity/code decoder) -/

/-- Embedding of `subpart_list`: split a manufacturer/distributor field value on the part
separator `PART_SEPRTR = (?<!\\)\s*[;,]\s*` after stripping the ends. -/
def subpart_list (part : String) : List String :=
  (pySplitSep [';', ','] (pyStrip part.data)).map String.mk

/-- The segments `manf_code_qtypart` works on: unescape via `ESC_FIND`, then
split on the quantity separator `QTY_SEPRTR = (?<!\\)\s*[:]\s*`. -/
def qtySegments (subpart : String) : List String :=
  (pySplitSep [':'] (escRemove subpart.data)).map String.mk

/-- Length of a segment after deleting `.` and `/` characters
(`len(re.sub('[\.\/]','',s))`), used to pick the quantity when both
segments look numeric. -/
def cleanedLen (s : String) : Nat :=
  (s.data.filter (fun c => ¬(c = '.' ∨ c = '/'))).length

/--
Embedding of `manf_code_qtypart`: decode one compound code string into
`(quantity, code)`.  Mirrors the Python control flow: two segments are
classified by `numFormatMatch`; exactly one numeric → that one is the
quantity; both numeric → the one shorter after deleting `./` characters;
neither → quantity `"1"` and the two stripped segments concatenated; any
other segment count → quantity `"1"` and all segments concatenated.
An empty quantity (after stripping) becomes `"1"`.
-/
def manf_code_qtypart (subpart : String) : String × String :=
  let strings := qtySegments subpart
  match strings with
  | [s0, s1] =>
    let t0 := numFormatMatch s0
    let t1 := numFormatMatch s1
    let (qty, part) :=
      if t0 ∧ ¬ t1 then (pyStripStr s0, pyStripStr s1)
      else if ¬ t0 ∧ t1 then (pyStripStr s1, pyStripStr s0)
      else if t0 ∧ t1 then
        if cleanedLen s0 < cleanedLen s1 then (pyStripStr s0, pyStripStr s1)
        else (pyStripStr s1, pyStripStr s0)
      else ("1", pyStripStr s0 ++ pyStripStr s1)
    if qty = "" then ("1", part) else (qty, part)
  | _ => ("1", String.join strings)

/-! ## Claims C6 and C7: decoder correctness -/

/-- C6: the quantity/code decoder returns exactly the four literal results
the spec lists: `"7:ADUM3150BRSZ-RL7" → ("7","ADUM3150BRSZ-RL7")`,
`"ADUM3150BRSZ-RL7" → ("1","ADUM3150BRSZ-RL7")`,
`"ADUM3150BRSZ-RL7 :   7" → ("7","ADUM3150BRSZ-RL7")` and
`" 4.5 : ADUM3150BRSZ-RL7" → ("4.5","ADUM3150BRSZ-RL7")`. -/
theorem manf_code_qtypart_literal_cases :
    manf_code_qtypart "7:ADUM3150BRSZ-RL7" = ("7", "ADUM3150BRSZ-RL7") ∧
    manf_code_qtypart "ADUM3150BRSZ-RL7" = ("1", "ADUM3150BRSZ-RL7") ∧
    manf_code_qtypart "ADUM3150BRSZ-RL7 :   7" = ("7", "ADUM3150BRSZ-RL7") ∧
    manf_code_qtypart " 4.5 : ADUM3150BRSZ-RL7" = ("4.5", "ADUM3150BRSZ-RL7") := by
  refine ⟨?_, ?_, ?_, ?_⟩ <;> decide

/-- C7 counterexample: `":77"` splits into the two segments `""` and
`"77"`, both of which match the numeric pattern, and `""` is strictly
shorter after deleting `./` characters — yet the decoder returns quantity
`"1"`, not the shorter segment `""`: an empty quantity is replaced by the
default `"1"`, so the claim as stated fails on this input. -/
theorem manf_code_qtypart_empty_qty_cex :
    qtySegments ":77" = ["", "77"] ∧
    numFormatMatch "" = true ∧ numFormatMatch "77" = true ∧
    cleanedLen "" < cleanedLen "77" ∧
    manf_code_qtypart ":77" = ("1", "77") ∧
    (("1" : String) ≠ "" ∧ ("1" : String) ≠ pyStripStr "") := by
  refine ⟨?_, ?_, ?_, ?_, ?_, ?_, ?_⟩ <;> decide

/-- C7 (amended): when the unescaped compound string splits on the
quantity separator into exactly two segments that both match the numeric
pattern and whose lengths after deleting `./` differ, the decoder returns
as quantity the stripped strictly-shorter segment — except that when that
stripped segment is empty the quantity defaults to `"1"` — and the other
segment, stripped, as the code. -/
theorem manf_code_qtypart_shorter_numeric (s a b : String)
    (hsplit : qtySegments s = [a, b]) (ha : numFormatMatch a = true)
    (hb : numFormatMatch b = true) (hne : cleanedLen a ≠ cleanedLen b) :
    manf_code_qtypart s =
      (if pyStripStr (if cleanedLen a < cleanedLen b then a else b) = "" then "1"
       else pyStripStr (if cleanedLen a < cleanedLen b then a else b),
       pyStripStr (if cleanedLen a < cleanedLen b then b else a)) := by
  unfold manf_code_qtypart
  rw [hsplit]
  by_cases h : cleanedLen a < cleanedLen b <;>
    simp [ha, hb, h] <;> split <;> simp_all

/-- Witness for C7 (amended) at the concrete input `"123:4.5"`. -/
theorem manf_code_qtypart_shorter_numeric_witness :
    manf_code_qtypart "123:4.5" =
      (if pyStripStr (if cleanedLen "123" < cleanedLen "4.5" then "123" else "4.5") = "" then "1"
       else pyStripStr (if cleanedLen "123" < cleanedLen "4.5" then "123" else "4.5"),
       pyStripStr (if cleanedLen "123" < cleanedLen "4.5" then "4.5" else "123")) :=
  manf_code_qtypart_shorter_numeric "123:4.5" "123" "4.5" (by decide) (by decide) (by decide)
    (by decide)

/-! ## Records and record sets

A record is a Python `dict` from field name to value, where a value may be
the Python `None` (modelled `Option String`, `none` = `None`).  A record
set maps designators to records.  Both keep insertion order, and
assignment replaces an existing key in place or appends a new one, exactly
like a Python `dict`. -/

/-- A component record: insertion-ordered field map with possibly-null values. -/
abbrev Record := List (String × Option String)

/-- A record set: insertion-ordered map from designator to record. -/
abbrev RecordSet := List (String × Record)

/-- Embedding of `fields[k]` guarded by `k in fields`: `some v` when the key is present
(with `v` the stored, possibly-null value), `none` when absent. -/
def rindex? (r : Record) (k : String) : Option (Option String) :=
  (r.find? (fun p => p.1 == k)).map (fun p => p.2)

/-- Python `fields.get(k)`: `none` both when the key is absent and when the
stored value is `None`. -/
def rget (r : Record) (k : String) : Option String :=
  match r.find? (fun p => p.1 == k) with
  | some p => p.2
  | none => none

/-- Python `fields[k] = v`: replace the value in place if the key exists,
otherwise append the new pair. -/
def rset (r : Record) (k : String) (v : Option String) : Record :=
  match r with
  | [] => [(k, v)]
  | p :: rest => if p.1 == k then (k, v) :: rest else p :: rset rest k v

/-- Python `components[ref]` (total with an irrelevant default: in the code
the key is always present when this is evaluated). -/
def recordOf (components : RecordSet) (ref : String) : Record :=
  match components.find? (fun p => p.1 == ref) with
  | some p => p.2
  | none => []

/-- Python `components[ref] = rec` on a record set. -/
def rsSet (components : RecordSet) (ref : String) (rec : Record) : RecordSet :=
  match components with
  | [] => [(ref, rec)]
  | p :: rest => if p.1 == ref then (ref, rec) :: rest else p :: rsSet rest ref rec

/-! ## `subpart_split` (sub-part splitter)

The configured distributor list (`distributor_dict`, supplied by the
distributor-registry collaborator) is a parameter `dists` throughout. -/

/-- The field list scanned for sub-part codes:
`dist = [d+'#' for d in distributor_dict]; dist.append('manf#')`. -/
def distCodeFields (dists : List String) : List String :=
  dists.map (fun d => d ++ "#") ++ ["manf#"]

/--
The first loop of `subpart_split`: collect `founded_fields`,
`subparts_qty` (max list length) and `subparts_manf_code` over the
manufacturer/distributor code fields present on the record.  A field
present with a null value makes the Python code crash with a `TypeError`
in `subpart_list(None).strip()`, modelled as an error.
-/
def collectGo (part : Record) :
    List String → (List String × Nat × List (String × List String)) →
    Except String (List String × Nat × List (String × List String))
  | [], acc => Except.ok acc
  | fc :: rest, acc =>
    match rindex? part fc with
    | none => collectGo part rest acc
    | some none =>
      Except.error "TypeError: expected a string in a manufacturer/distributor field"
    | some (some s) =>
      let l := subpart_list s
      collectGo part rest (acc.1 ++ [fc], max acc.2.1 l.length, acc.2.2 ++ [(fc, l)])

/-- See `collectGo`; the loop starts with no founded fields and `subparts_qty = 0`. -/
def collectManfCodes (dists : List String) (part : Record) :
    Except String (List String × Nat × List (String × List String)) :=
  collectGo part (distCodeFields dists) ([], 0, [])

/-- The `manf` name list: split `part['manf']`; a missing key yields empty
names (the inner `except KeyError`); a count mismatch replicates a single
name or pads with `''`; a null value crashes (`TypeError`). -/
def getManfNames (part : Record) (qty : Nat) : Except String (List String) :=
  match rindex? part "manf" with
  | none => .ok (List.replicate qty "")
  | some none => .error "TypeError: expected a string in the manf field"
  | some (some s) =>
    let m := subpart_list s
    .ok (if m.length ≠ qty then
           if m.length = 1 then List.replicate qty (m.headD "")
           else m ++ List.replicate (qty - m.length) ""
         else m)

/-- Python `'{}'.format(value)` on a possibly-null field value. -/
def pyFormatVal (v : Option String) : String :=
  match v with
  | some s => s
  | none => "None"

/-- Embedding of `SUB_SEPRTR`: the sub-part separator appended to a designator. -/
def SUB_SEPRTR : String := "#"

/-- Embedding of `REPLICATE_MANF`: the sentinel that reuses the previous `manf` name. -/
def REPLICATE_MANF : String := "~"

/-- Embedding of `subparts_manf_code[fc]` lookup (key always present for founded fields). -/
def codesAt (codes : List (String × List String)) (fc : String) : List String :=
  match codes.find? (fun p => p.1 == fc) with
  | some p => p.2
  | none => []

/-- The per-sub-part field update: for each founded field, decode the code
at this index and set the annotated `value`, the resolved code and the
`_qty` sibling; an `IndexError` (code list shorter than this index) leaves
the copied record untouched for that field. -/
def subpartFieldsAt (founded : List String) (codes : List (String × List String))
    (pav : Option String) (qty idx : Nat) (part : Record) : Record :=
  founded.foldl
    (fun sa fc =>
      match (codesAt codes fc).get? idx with
      | some code =>
        let qp := manf_code_qtypart code
        rset (rset (rset sa "value"
            (some (pyFormatVal pav ++ " - p" ++ toString (idx + 1) ++ "/" ++ toString qty)))
          fc (some qp.2)) (fc ++ "_qty") (some qp.1)
      | none => sa)
    part

/-- The `subparts_qty > 1` branch of `subpart_split`: emit one synthetic
record per sub-index with designator `ref#<idx+1>`.  The `p_manf` name is
threaded across iterations so the `~` sentinel replicates the previous
name; a `~` at index 0 crashes in Python (`p_manf` unbound), modelled as
an error. -/
def splitSubparts (ref : String) (part : Record) (founded : List String)
    (codes : List (String × List String)) (manfNames : List String)
    (pav : Option String) (qty : Nat) : Except String (List (String × Record)) :=
  let r : Except String (Option String × List (String × Record)) :=
    (List.range qty).foldlM
      (fun acc idx =>
        let sub := subpartFieldsAt founded codes pav qty idx part
        let pManf := if manfNames.getD idx "" ≠ REPLICATE_MANF
                     then some (manfNames.getD idx "") else acc.1
        match pManf with
        | none => Except.error "UnboundLocalError: p_manf referenced before assignment"
        | some pm =>
          Except.ok (pManf, acc.2 ++ [(ref ++ SUB_SEPRTR ++ toString (idx + 1),
                                       rset sub "manf" (some pm))]))
      ((none : Option String), ([] : List (String × Record)))
  r.map (fun st => st.2)

/-- The single-sub-part branch: still decode each founded field (index `0`
of each code list, which always exists) so a multiplier becomes a `_qty`
sibling; the record is stored only if at least one field was decoded,
mirroring the assignment inside the loop. -/
def singleSubpart (ref : String) (part : Record) (founded : List String)
    (codes : List (String × List String)) : List (String × Record) :=
  let st := founded.foldl
    (fun (st : Record × Bool) fc =>
      match (codesAt codes fc).get? 0 with
      | some code =>
        let qp := manf_code_qtypart code
        (rset (rset st.1 fc (some qp.2)) (fc ++ "_qty") (some qp.1), true)
      | none => st)
    (part, false)
  if st.2 then [(ref, st.1)] else []

/-- Embedding of `subpart_split` restricted to one designator: the contribution of one
`(ref, part)` pair to `splitted_components`.  A record with no
manufacturer/distributor field passes through unchanged; a multi-sub-part
record missing the `value` field raises `KeyError`, which the enclosing
`except KeyError: continue` turns into silently dropping the record. -/
def processOne (dists : List String) (ref : String) (part : Record) :
    Except String (List (String × Record)) :=
  match collectManfCodes dists part with
  | Except.error e => Except.error e
  | Except.ok (founded, qty, codes) =>
    if founded.isEmpty then Except.ok [(ref, part)]
    else
      match getManfNames part qty with
      | Except.error e => Except.error e
      | Except.ok manfNames =>
        if 1 < qty then
          match rindex? part "value" with
          | none => Except.ok []
          | some pav => splitSubparts ref part founded codes manfNames pav qty
        else Except.ok (singleSubpart ref part founded codes)

/-- The loop of `subpart_split`, threading the `splitted_components` dict. -/
def subpartSplitGo (dists : List String) : RecordSet → RecordSet → Except String RecordSet
  | acc, [] => Except.ok acc
  | acc, rp :: rest =>
    match processOne dists rp.1 rp.2 with
    | Except.error e => Except.error e
    | Except.ok outs =>
      subpartSplitGo dists (outs.foldl (fun a q => rsSet a q.1 q.2) acc) rest

/-- Embedding of `subpart_split`: expand every record of the set, accumulating the
emitted records into the `splitted_components` dict in order. -/
def subpart_split (dists : List String) (components : RecordSet) :
    Except String RecordSet :=
  subpartSplitGo dists [] components


/-! ## Claims C2 and C10: sub-part splitting -/

/-- C2 (divergence witness): on the record from the code's own worked
example — `manf# = "PARTG1;PARTG2;PARTG3"`, `mouser# = "PARTM1;PARTM2"`
with `mouser` a configured distributor — `subpart_split` does emit the
three synthetic designators `U1#1, U1#2, U1#3` with the codes decoded at
each index, but `U1#3` still carries a `mouser#` field holding the whole
undecoded list `"PARTM1;PARTM2"`: on `IndexError` the copied record keeps
the original compound value instead of omitting the field, contradicting
the claim (and the comment in the source documenting this very example). -/
theorem subpart_split_keeps_undecoded_distributor_field :
    ∃ out, subpart_split ["mouser"]
        [("U1", [("manf#", some "PARTG1;PARTG2;PARTG3"),
                 ("mouser#", some "PARTM1;PARTM2"), ("value", some "IC")])] =
        Except.ok out ∧
      out.map Prod.fst = ["U1#1", "U1#2", "U1#3"] ∧
      rget (recordOf out "U1#1") "manf#" = some "PARTG1" ∧
      rget (recordOf out "U1#1") "mouser#" = some "PARTM1" ∧
      rget (recordOf out "U1#2") "manf#" = some "PARTG2" ∧
      rget (recordOf out "U1#2") "mouser#" = some "PARTM2" ∧
      rget (recordOf out "U1#3") "manf#" = some "PARTG3" ∧
      rindex? (recordOf out "U1#3") "mouser#" = some (some "PARTM1;PARTM2") := by
  refine ⟨_, rfl, ?_, ?_, ?_, ?_, ?_, ?_, ?_⟩ <;> decide

/-- Unfolding equation for one step of the `subpart_split` loop. -/
theorem subpartSplitGo_cons (dists : List String) (acc : RecordSet)
    (rp : String × Record) (rest : RecordSet) :
    subpartSplitGo dists acc (rp :: rest) =
      match processOne dists rp.1 rp.2 with
      | Except.error e => Except.error e
      | Except.ok outs =>
        subpartSplitGo dists (outs.foldl (fun a q => rsSet a q.1 q.2) acc) rest := rfl

/-- Embedding of `collectGo` can only return with an empty founded-field list if it never
took the accumulating branch, i.e. if it returns its accumulator unchanged. -/
theorem collectGo_founded_nil (part : Record) :
    ∀ (l : List String) (acc r : List String × Nat × List (String × List String)),
      collectGo part l acc = Except.ok r → r.1 = [] → r = acc ∧ acc.1 = [] := by
  intro l
  induction l with
  | nil =>
    intro acc r h hr
    cases h
    exact ⟨rfl, hr⟩
  | cons fc rest ih =>
    intro acc r h hr
    unfold collectGo at h
    cases hidx : rindex? part fc with
    | none =>
      rw [hidx] at h
      exact ih acc r h hr
    | some v =>
      cases v with
      | none => rw [hidx] at h; cases h
      | some s =>
        rw [hidx] at h
        have := ih _ r h hr
        have h2 := congrArg (fun t => t.1) this.1
        simp at h2
        rw [hr] at h2
        simp at h2

/-- Under the hypotheses of C10 the designator contributes nothing to
`splitted_components`. -/
theorem processOne_drops_valueless_multipart (dists : List String) (ref : String)
    (part : Record)
    (hval : rindex? part "value" = none)
    (hqty : ∃ founded qty codes,
      collectManfCodes dists part = Except.ok (founded, qty, codes) ∧ 1 < qty)
    (hmanf : rindex? part "manf" ≠ some none) :
    processOne dists ref part = Except.ok [] := by
  obtain ⟨founded, qty, codes, hc, hq⟩ := hqty
  have hfo : founded ≠ [] := by
    intro hnil
    have := collectGo_founded_nil part (distCodeFields dists) ([], 0, []) (founded, qty, codes)
      hc hnil
    have hq0 : qty = 0 := by
      have := congrArg (fun t => t.2.1) this.1
      simpa using this
    omega
  have hfo' : founded.isEmpty = false := by
    cases founded with
    | nil => exact absurd rfl hfo
    | cons a l => rfl
  unfold processOne
  rw [hc]
  dsimp only
  rw [hfo']
  simp only [Bool.false_eq_true, if_false]
  cases hm : rindex? part "manf" with
  | none =>
    unfold getManfNames
    rw [hm]
    dsimp only
    rw [if_pos hq, hval]
  | some v =>
    cases v with
    | none => exact absurd hm hmanf
    | some s =>
      unfold getManfNames
      rw [hm]
      dsimp only
      rw [if_pos hq, hval]

/-- C10: a record whose manufacturer/distributor fields encode more than
one sub-part but which has no `value` field is silently dropped by
`subpart_split`: the `KeyError` from `part['value']` is caught by the
enclosing handler, and the output is the same as if the record had not
been in the input at all.  (The record's `manf` field must not be the
null value, which would crash earlier with a `TypeError`.) -/
theorem subpart_split_drops_valueless_multipart (dists : List String) (ref : String)
    (part : Record) (pre post : RecordSet)
    (hval : rindex? part "value" = none)
    (hqty : ∃ founded qty codes,
      collectManfCodes dists part = Except.ok (founded, qty, codes) ∧ 1 < qty)
    (hmanf : rindex? part "manf" ≠ some none) :
    subpart_split dists (pre ++ (ref, part) :: post) = subpart_split dists (pre ++ post) := by
  have hdrop := processOne_drops_valueless_multipart dists ref part hval hqty hmanf
  unfold subpart_split
  generalize ([] : RecordSet) = acc
  induction pre generalizing acc with
  | nil =>
    simp only [List.nil_append]
    rw [subpartSplitGo_cons, hdrop]
    rfl
  | cons rp rest ih =>
    simp only [List.cons_append]
    rw [subpartSplitGo_cons, subpartSplitGo_cons]
    cases hp : processOne dists rp.1 rp.2 with
    | error e => rfl
    | ok outs => exact ih _

/-- Witness for C10: the single record `("U1", manf# = "A;B")` has two
sub-parts, no `value` field, and is dropped entirely. -/
theorem subpart_split_drops_valueless_multipart_witness :
    rindex? [("manf#", some "A;B")] "value" = none ∧
    subpart_split [] [("U1", [("manf#", some "A;B")])] = subpart_split [] [] :=
  ⟨by decide,
   subpart_split_drops_valueless_multipart [] "U1" [("manf#", some "A;B")] [] []
     (by decide) ⟨["manf#"], 2, [("manf#", ["A", "B"])], rfl, by decide⟩
     (by decide)⟩

/-! ## `collapse_refs` (reference collapser) -/

/-- The special characters allowed inside a reference prefix
(`PART_REF_REGEX_SPECIAL_CHAR_REF = \+\-\=\s\_\.\(\)\$\*\&`). -/
def isRefSpecial (c : Char) : Bool :=
  c = '+' ∨ c = '-' ∨ c = '=' ∨ isPySpace c ∨ c = '_' ∨ c = '.' ∨ c = '(' ∨ c = ')' ∨
  c = '$' ∨ c = '*' ∨ c = '&'

/-- Characters matching the final prefix class `[a-z{sc}]` (with
`re.IGNORECASE`): a Latin letter or a special character, no digit. -/
def isRefY (c : Char) : Bool :=
  c.isAlpha ∨ isRefSpecial c

/-- Characters matching the inner prefix class `[a-z{sc}\d]`. -/
def isRefX (c : Char) : Bool :=
  isRefY c ∨ c.isDigit

/-- The `num` group `((?P<ref_num>\d+(\.\d+)?)(#(?P<subpart_num>\d+))?)?` of
`PART_REF_REGEX`, parsed greedily from the characters after the prefix. -/
def partRefNum (l : List Char) : List Char :=
  let d1 := l.takeWhile Char.isDigit
  if d1.isEmpty then []
  else
    let rest1 := l.drop d1.length
    let fr : List Char × List Char :=
      match rest1 with
      | '.' :: r =>
        let d2 := r.takeWhile Char.isDigit
        if d2.isEmpty then ([], rest1) else ('.' :: d2, r.drop d2.length)
      | _ => ([], rest1)
    let sub : List Char :=
      match fr.2 with
      | '#' :: r =>
        let d3 := r.takeWhile Char.isDigit
        if d3.isEmpty then [] else '#' :: d3
      | _ => []
    d1 ++ fr.1 ++ sub

/--
Embedding of `re.search(PART_REF_REGEX, ref)`: the prefix pattern is `[X]*[Y]` (greedy),
so a match starting at a position exists exactly when the maximal `X`-run
from there contains a `Y` character, and the matched prefix is the longest
head of that run ending in a `Y` character; the scan finds the leftmost
such position.  Returns the `prefix` and `num` groups.
-/
def partRefSearch : List Char → Option (List Char × List Char)
  | [] => none
  | c :: rest =>
    let run := (c :: rest).takeWhile isRefX
    if run.any isRefY then
      let pfx := (run.reverse.dropWhile (fun ch => ¬ isRefY ch)).reverse
      some (pfx, partRefNum ((c :: rest).drop pfx.length))
    else partRefSearch rest

/-- A reference number after `to_int`: an integer when Python `int()`
succeeds, the original string otherwise. -/
inductive RefNum where
  | int (n : Int)
  | str (s : String)
deriving DecidableEq

/-- One output entry of `convert_to_ranges`: a single number or a
`[first, last]` range. -/
inductive RangeEntry where
  | single (r : RefNum)
  | range (a b : Int)
deriving DecidableEq

/-- Embedding of `get_refnum`: the integer value of the leading digit run, `none` when
there is none (where Python would crash on `None.group(0)`). -/
def leadingNat? (s : String) : Option Nat :=
  let d := s.data.takeWhile Char.isDigit
  if d.isEmpty then none
  else some (d.foldl (fun n c => 10 * n + (c.toNat - 48)) 0)

/-- Python `int(s)` on the strings that occur here: optional surrounding
whitespace, optional sign, then a non-empty digit run. -/
def pyInt? (s : String) : Option Int :=
  let l := pyStrip s.data
  let sl : Int × List Char :=
    match l with
    | '-' :: r => (-1, r)
    | '+' :: r => (1, r)
    | _ => (1, l)
  if sl.2.isEmpty ∨ ¬ sl.2.all Char.isDigit then none
  else some (sl.1 * (sl.2.foldl (fun n c => 10 * n + ((c.toNat : Int) - 48)) 0))

/-- Embedding of `to_int`: convert to an integer if possible, else keep the string. -/
def to_int (s : String) : RefNum :=
  match pyInt? s with
  | some n => RefNum.int n
  | none => RefNum.str s

/-- One insertion step of a stable insertion sort: place `x` before the
first element it compares strictly less than. -/
def insertSorted (lt : α → α → Bool) (x : α) : List α → List α
  | [] => [x]
  | y :: ys => if lt x y then x :: y :: ys else y :: insertSorted lt x ys

/-- Stable sort (same order as Python `list.sort` / `sorted` with a key):
elements with equal keys keep their original relative order. -/
def stableSort (lt : α → α → Bool) (l : List α) : List α :=
  l.foldl (fun acc x => insertSorted lt x acc) []

/-- The inner `for range_end in range(range_start+2, len(nums))` scan: walk
forward while every element is an `int` satisfying
`range_end - range_start == nums[range_end] - nums[range_start]`, and
return the last passing index and its value. -/
def scanSeq (startIdx : Nat) (startVal : Int) : Nat → List RefNum → Option (Nat × Int)
  | _, [] => none
  | idx, x :: rest =>
    match x with
    | RefNum.int v =>
      if (idx : Int) - (startIdx : Int) = v - startVal then
        match scanSeq startIdx startVal (idx + 1) rest with
        | some je => some je
        | none => some (idx, v)
      else none
    | RefNum.str _ => none

/-- The `while range_start < len(nums)` loop of `convert_to_ranges`: emit a
range for three or more sequential numbers, a single entry otherwise.
`fuel` bounds the recursion (each step emits one entry, so
`nums.length + 1` is enough). -/
def rangesGo (nums : List RefNum) : Nat → Nat → List RangeEntry
  | 0, _ => []
  | fuel + 1, start =>
    match nums.drop start with
    | [] => []
    | RefNum.str s :: _ => RangeEntry.single (RefNum.str s) :: rangesGo nums fuel (start + 1)
    | RefNum.int v :: _ =>
      match scanSeq start v (start + 2) (nums.drop (start + 2)) with
      | none => RangeEntry.single (RefNum.int v) :: rangesGo nums fuel (start + 1)
      | some je => RangeEntry.range v je.2 :: rangesGo nums fuel (je.1 + 1)

/-- Embedding of `convert_to_ranges`: sort numerically by leading digits (stable), turn
fully-numeric strings into ints, then collapse runs of three or more
sequential ints; `none` models the crash of `get_refnum` on a string with
no leading digits. -/
def convert_to_ranges (nums : List String) : Option (List RangeEntry) :=
  if nums.all (fun n => (leadingNat? n).isSome) then
    let sorted := stableSort
      (fun a b => decide ((leadingNat? a).getD 0 < (leadingNat? b).getD 0)) nums
    let ints := sorted.map to_int
    some (rangesGo ints (ints.length + 1) 0)
  else none

/-- Embedding of `prefix_nums.setdefault(p, []).append(n)`: append a number to the list
of its prefix, creating the entry at the end on first encounter. -/
def addPref : List (String × List String) → String → String → List (String × List String)
  | [], p, n => [(p, [n])]
  | q :: rest, p, n =>
    if q.1 == p then (q.1, q.2 ++ [n]) :: rest else q :: addPref rest p n

/-- Rendering a `RefNum` back into a reference string. -/
def refNumStr : RefNum → String
  | RefNum.int n => toString n
  | RefNum.str s => s

/-- Embedding of `collapse_refs`: partition each reference into prefix and number (a
non-matching reference is a fatal error), group numbers by prefix in
discovery order, collapse each group into ranges, and join everything
with commas. -/
def collapse_refs (refs : List String) : Except String String := do
  let pn ← refs.foldlM
    (fun (pn : List (String × List String)) ref =>
      match partRefSearch ref.data with
      | some pr => Except.ok (addPref pn (String.mk pr.1) (String.mk pr.2))
      | none => Except.error ("Not recognized characters used in <" ++ ref ++ "> reference."))
    []
  let pr ← pn.mapM
    (fun (p : String × List String) =>
      match convert_to_ranges p.2 with
      | some rs => Except.ok (p.1, rs)
      | none =>
        Except.error "AttributeError: reference number without digits in convert_to_ranges")
  let collapsed := pr.flatMap
    (fun p => p.2.map
      (fun e =>
        match e with
        | RangeEntry.range a b => p.1 ++ toString a ++ "-" ++ p.1 ++ toString b
        | RangeEntry.single r => p.1 ++ refNumStr r))
  return String.intercalate "," collapsed

/-! ## Claim C8: collapse correctness -/

/-- C8: the references `R3 R4 R7 R8 R9 R10 R11 R13 R14` collapse to
exactly `"R3,R4,R7-R11,R13,R14"`: the run of five consecutive numbers
becomes `R7-R11`, the runs of length two stay individual. -/
theorem collapse_refs_example :
    collapse_refs ["R3", "R4", "R7", "R8", "R9", "R10", "R11", "R13", "R14"] =
      Except.ok "R3,R4,R7-R11,R13,R14" := by
  rfl

/-! ## Field-name normalization (the alias table) -/

/-- The fixed manufacturer aliases of `field_name_translations`. -/
def baseFieldTranslations : List (String × String) :=
  [("mpn", "manf#"), ("pn", "manf#"), ("manf_num", "manf#"), ("manf-num", "manf#"),
   ("mfg_num", "manf#"), ("mfg-num", "manf#"), ("mfg#", "manf#"), ("man_num", "manf#"),
   ("man-num", "manf#"), ("man#", "manf#"), ("mnf_num", "manf#"), ("mnf-num", "manf#"),
   ("mnf#", "manf#"), ("mfr_num", "manf#"), ("mfr-num", "manf#"), ("mfr#", "manf#"),
   ("part-num", "manf#"), ("part_num", "manf#"), ("p#", "manf#"), ("part#", "manf#"),
   ("manf", "manf"), ("manufacturer", "manf"), ("mnf", "manf"), ("man", "manf"),
   ("mfg", "manf"), ("mfr", "manf")]

/-- The per-distributor alias stubs. -/
def distStubs : List String :=
  ["part#", "#", "p#", "pn", "vendor#", "vp#", "vpn", "num"]

/-- The full alias table: base aliases, then the distributor cross product,
then the trailing `variant`/`dnp`/`description` entries, in the order the
Python dict is populated (a later entry overrides an earlier one). -/
def field_name_translations (dists : List String) : List (String × String) :=
  baseFieldTranslations ++
  (distStubs.flatMap fun stub => dists.flatMap fun d =>
    [(d ++ stub, d ++ "#"), (d ++ "_" ++ stub, d ++ "#"), (d ++ "-" ++ stub, d ++ "#")]) ++
  [("variant", "variant"), ("version", "variant"), ("dnp", "dnp"), ("nopop", "dnp"),
   ("description", "desc")]

/-- Python dict lookup on the assembled table: the last write to a key wins. -/
def lookupLast (t : List (String × String)) (k : String) : Option String :=
  (t.reverse.find? (fun p => p.1 == k)).map (fun p => p.2)

/-- Embedding of `field_name_translations.get(f.lower(), f.lower())`: canonicalize one
field name; unknown names pass through lower-cased. -/
def normalizeField (dists : List String) (f : String) : String :=
  (lookupLast (field_name_translations dists) (pyLower f)).getD (pyLower f)

/-! ## `group_parts` (grouping engine) -/

/-- Embedding of `FIELDS_MANF`: the manufacturer/distributor fields that never take part
in the equivalence hash and may never be merged away. -/
def FIELDS_MANF (dists : List String) : List String :=
  ["manf#", "manf#_qty", "manf"] ++ dists.map (fun d => d ++ "#") ++
    dists.map (fun d => d ++ "#_qty")

/-- Modelled from the spec: `SEPRTR`, the tool-internal separator character
(defined in the `globals` module, which is not part of this source file);
a field whose name contains it is tool-private and excluded from
equivalence hashing.  The `local:dnp` / `local:variant` field names in
this source show the character is the colon. -/
def SEPRTR : Char := ':'

/-- Sort a record's retained `(field, value)` pairs by field name, Python
`sorted(...)` being a stable comparison sort (field names are unique
within a record, so only names are ever compared). -/
def sortPairs (l : List (String × Option String)) : List (String × Option String) :=
  stableSort (fun p q => pyStrLt p.1 q.1) l

/-- The equality key of a record: its fields minus `FIELDS_MANF`, minus the
merge fields, minus tool-private fields, sorted by name.  Python hashes
this key; the hash is assumed collision-free (a collision would silently
merge unrelated parts), so the key itself is used as the dictionary key. -/
def groupKey (excl : List String) (fields : Record) : List (String × Option String) :=
  sortPairs (fields.filter (fun p => ¬ excl.contains p.1 ∧ ¬ strHasChar p.1 SEPRTR))

/-- A provisional hash group: the accumulated member designators (in
insertion order) and the set of distinct `manf#` values seen (`none` is
the absent-value sentinel; modelled as a duplicate-free list). -/
structure ProvGroup where
  key : List (String × Option String)
  refs : List String
  manf_nums : List (Option String)
deriving DecidableEq

/-- Embedding of `set.add`: insert a `manf#` value if not already present. -/
def insertManf (mn : Option String) (l : List (Option String)) : List (Option String) :=
  if mn ∈ l then l else l ++ [mn]

/-- Add one record to the provisional group with a matching key, or append
a fresh group (Python dict: new keys go to the end). -/
def addToGroups (k : List (String × Option String)) (ref : String) (mn : Option String) :
    List ProvGroup → List ProvGroup
  | [] => [⟨k, [ref], [mn]⟩]
  | g :: gs =>
    if g.key = k then
      { g with refs := g.refs ++ [ref], manf_nums := insertManf mn g.manf_nums } :: gs
    else g :: addToGroups k ref mn gs

/-- The loop of the first pass of `group_parts`. -/
def hashGroupsGo (excl : List String) : List ProvGroup → RecordSet → List ProvGroup
  | acc, [] => acc
  | acc, rp :: rest =>
    hashGroupsGo excl (addToGroups (groupKey excl rp.2) rp.1 (rget rp.2 "manf#") acc) rest

/-- The first pass of `group_parts`: partition the records into provisional
groups of identical hash keys. -/
def hashGroups (excl : List String) (components : RecordSet) : List ProvGroup :=
  hashGroupsGo excl [] components

/-- A refined group: member designators plus their `manf#` values, before
field propagation. -/
structure RefGroup where
  refs : List String
  manf_nums : List (Option String)
deriving DecidableEq

/-- The `manf#`-cardinality refinement of one provisional group: one
distinct value, or two with one the absent sentinel, keeps the group;
otherwise one sub-group per distinct value, keeping exactly the members
whose `manf#` equals that value. -/
def refineGroup (components : RecordSet) (g : ProvGroup) : List RefGroup :=
  if g.manf_nums.length = 1 then [⟨g.refs, g.manf_nums⟩]
  else if g.manf_nums.length = 2 ∧ none ∈ g.manf_nums then [⟨g.refs, g.manf_nums⟩]
  else
    g.manf_nums.map (fun mn =>
      ⟨g.refs.filter (fun ref => rget (recordOf components ref) "manf#" == mn), [mn]⟩)

/-- First-occurrence deduplication, as Python dict / `Counter` key order. -/
def dedupFirstGo [BEq α] (seen : List α) : List α → List α
  | [] => []
  | x :: rest =>
    if seen.contains x then dedupFirstGo seen rest
    else x :: dedupFirstGo (seen ++ [x]) rest

/-- See `dedupFirstGo`. -/
def dedupFirst [BEq α] (l : List α) : List α := dedupFirstGo [] l

/-- One merge-field rewrite inside one group (ISSUE #102): count the
distinct values of field `f` over the group members (missing values read
as `''` via `v.get(f) or ''`); with more than one distinct value, replace
the field on every member by the line-separated catalogue of
`collapsed-refs: value` entries.  Note the per-value reference buckets
compare `components[r].get(f)` against the value *without* the `or ''`
fallback, so members whose value is null land in no bucket. -/
def mergeFieldOne (components : RecordSet) (grefs : List String) (f : String) :
    Except String RecordSet :=
  let drefs := dedupFirst grefs
  let values_field := drefs.map (fun r => (rget (recordOf components r) f).getD "")
  let occKeys := dedupFirst values_field
  if occKeys.length > 1 then do
    let entries ← occKeys.mapM
      (fun t => do
        let rs := grefs.filter (fun r => rget (recordOf components r) f == some t)
        let c ← collapse_refs rs
        pure (c ++ String.mk [SEPRTR] ++ " " ++ t))
    let value := String.intercalate "\n" entries
    pure (grefs.foldl
      (fun cs r => rsSet cs r (rset (recordOf cs r) f (some value))) components)
  else pure components

/-- The merge-field pass of `group_parts`: skipped entirely when no merge
fields were requested; otherwise the (re-normalized) merge fields are
rewritten group by group, mutating the record set. -/
def mergePhase (dists : List String) (components : RecordSet) (groups : List RefGroup)
    (fm1 : List String) : Except String RecordSet :=
  if fm1.isEmpty then Except.ok components
  else
    let fm2 := fm1.map (normalizeField dists)
    groups.foldlM
      (fun cs grp => fm2.foldlM (fun cs2 f => mergeFieldOne cs2 grp.refs f) cs)
      components

/-- The propagated-fields dictionary of a group (string values only: null
values are skipped before insertion). -/
abbrev GroupFields := List (String × String)

/-- Lookup in the propagated-fields dictionary. -/
def lookupStr (gf : GroupFields) (k : String) : Option String :=
  (gf.find? (fun p => p.1 == k)).map (fun p => p.2)

/-- Assignment in the propagated-fields dictionary. -/
def setStr (gf : GroupFields) (k : String) (v : String) : GroupFields :=
  match gf with
  | [] => [(k, v)]
  | p :: rest => if p.1 == k then (k, v) :: rest else p :: setStr rest k v

/-- The `Field value mismatch` fatal message. -/
def mismatchMsg (ref k v old : String) : String :=
  "Field value mismatch: ref=" ++ ref ++ " field=" ++ k ++ " value=" ++ v ++
    " group=" ++ old

/--
The field-propagation scan of `group_parts` over the flattened
`(ref, key, value)` triples of a group's members: null values are skipped;
`if grp_fields.get(key):` is a *truthiness* test, so a key stored with the
empty string counts as unseen and is silently overwritten; a key stored
with a non-empty string conflicts fatally with any different later value.
-/
def propagateScan : GroupFields → List (String × String × Option String) →
    Except String GroupFields
  | gf, [] => Except.ok gf
  | gf, (_, _, none) :: rest => propagateScan gf rest
  | gf, (r, k, some v) :: rest =>
    match lookupStr gf k with
    | some old =>
      if old ≠ "" then
        if v = old then propagateScan gf rest
        else Except.error (mismatchMsg r k v old)
      else propagateScan (setStr gf k v) rest
    | none => propagateScan (setStr gf k v) rest

/-- A final component group (the source's `IdenticalComponents` object):
member designators, `manf#` values, and the reconciled field map. -/
structure IdenticalComponents where
  refs : List String
  manf_nums : List (Option String)
  fields : GroupFields
deriving DecidableEq

/-- The flattened propagation input of one group. -/
def groupTriples (components : RecordSet) (refs : List String) :
    List (String × String × Option String) :=
  refs.flatMap (fun r => (recordOf components r).map (fun p => (r, p.1, p.2)))

/-- Propagate the field values of one refined group, or fail on a field
value mismatch. -/
def propagateGroup (components : RecordSet) (g : RefGroup) : Except String IdenticalComponents :=
  (propagateScan [] (groupTriples components g.refs)).map
    (fun gf => ⟨g.refs, g.manf_nums, gf⟩)

/-- Propagate every refined group in order, stopping at the first fatal
mismatch. -/
def propagateAll (components : RecordSet) :
    List RefGroup → Except String (List IdenticalComponents)
  | [] => Except.ok []
  | g :: rest =>
    match propagateGroup components g with
    | Except.error e => Except.error e
    | Except.ok out =>
      match propagateAll components rest with
      | Except.error e => Except.error e
      | Except.ok outs => Except.ok (out :: outs)

/-- The rejection message for a disallowed merge field. -/
def mergeRejectMsg (c : String) : String :=
  "Manufactutor/distributor codes and manufacture company " ++ c ++
    " cannot be ignored to create the components groups."

/--
Embedding of `group_parts`: normalize the merge-field list and reject any
manufacturer/distributor field in it; hash the records into provisional
groups; refine by `manf#` cardinality; rewrite the requested merge fields;
then propagate field values group by group (fatal on a mismatch).
-/
def group_parts (dists : List String) (components : RecordSet)
    (fields_merge : List String) : Except String (List IdenticalComponents) :=
  match (FIELDS_MANF dists).find?
      (fun c => (fields_merge.map (normalizeField dists)).contains c) with
  | some c => Except.error (mergeRejectMsg c)
  | none =>
    match mergePhase dists components
        ((hashGroups (FIELDS_MANF dists ++ fields_merge.map (normalizeField dists))
            components).flatMap (refineGroup components))
        (fields_merge.map (normalizeField dists)) with
    | Except.error e => Except.error e
    | Except.ok components2 =>
      propagateAll components2
        ((hashGroups (FIELDS_MANF dists ++ fields_merge.map (normalizeField dists))
            components).flatMap (refineGroup components))

/-! ## Claim C5: merge-field rejection -/

/-- C5: whenever the merge-field list, normalized through the alias
table, contains `manf`, `manf#`, `manf#_qty`, a configured distributor
code field or its `_qty` sibling, `group_parts` fails with the rejection
message — for every record set, so before any grouping work is done; this
covers aliases such as `mpn`, which normalizes to `manf#`. -/
theorem group_parts_rejects_merge_fields (dists : List String) (components : RecordSet)
    (fields_merge : List String)
    (h : ∃ c ∈ FIELDS_MANF dists, c ∈ fields_merge.map (normalizeField dists)) :
    ∃ c ∈ FIELDS_MANF dists, c ∈ fields_merge.map (normalizeField dists) ∧
      group_parts dists components fields_merge = Except.error (mergeRejectMsg c) := by
  have hsome : ((FIELDS_MANF dists).find?
      (fun c => (fields_merge.map (normalizeField dists)).contains c)).isSome := by
    rw [List.find?_isSome]
    obtain ⟨c, hc1, hc2⟩ := h
    exact ⟨c, hc1, by simpa [List.contains, List.elem_iff] using hc2⟩
  obtain ⟨c0, hfind⟩ := Option.isSome_iff_exists.mp hsome
  have hc0mem : c0 ∈ FIELDS_MANF dists := List.mem_of_find?_eq_some hfind
  have hc0p : c0 ∈ fields_merge.map (normalizeField dists) := by
    have := List.find?_some hfind
    simpa [List.contains, List.elem_iff] using this
  refine ⟨c0, hc0mem, hc0p, ?_⟩
  unfold group_parts
  rw [hfind]

/-- Witness for C5 at the alias `mpn` (which normalizes to `manf#`) with no
configured distributors and an empty record set. -/
theorem group_parts_rejects_merge_fields_witness :
    ∃ c ∈ FIELDS_MANF [], c ∈ ["mpn"].map (normalizeField []) ∧
      group_parts [] [] ["mpn"] = Except.error (mergeRejectMsg c) :=
  group_parts_rejects_merge_fields [] [] ["mpn"] ⟨"manf#", by decide, by decide⟩

/-! ## Claim C4: conflict detection during field propagation -/

/-- C4 counterexample: two records that share a final group hold the
*different non-null* values `""` and `"x"` for the non-merged field
`manf`, yet `group_parts` returns normally: the truthiness test
`if grp_fields.get(key):` treats the stored empty string as unseen and
silently overwrites it instead of aborting. -/
theorem group_parts_empty_string_mismatch_cex :
    (group_parts []
        [("R1", [("value", some "10k"), ("manf", some "")]),
         ("R2", [("value", some "10k"), ("manf", some "x")])] []).toOption =
      some [⟨["R1", "R2"], [none], [("value", "10k"), ("manf", "x")]⟩] ∧
    rget (recordOf
        [("R1", [("value", some "10k"), ("manf", some "")]),
         ("R2", [("value", some "10k"), ("manf", some "x")])] "R1") "manf" = some "" ∧
    rget (recordOf
        [("R1", [("value", some "10k"), ("manf", some "")]),
         ("R2", [("value", some "10k"), ("manf", some "x")])] "R2") "manf" = some "x" ∧
    (some "" : Option String) ≠ some "x" :=
  ⟨by decide, by decide, by decide, by decide⟩

/-- Embedding of `setStr` changes exactly the looked-up key. -/
theorem lookupStr_setStr (gf : GroupFields) (k0 v k : String) :
    lookupStr (setStr gf k0 v) k = if k0 = k then some v else lookupStr gf k := by
  induction gf with
  | nil =>
    by_cases h : k0 = k
    · subst h; simp [setStr, lookupStr, List.find?]
    · have hb : (k0 == k) = false := by simpa using h
      simp [setStr, lookupStr, List.find?, hb, h]
  | cons p rest ih =>
    obtain ⟨p1, p2⟩ := p
    by_cases hp : p1 = k0
    · subst hp
      by_cases h : p1 = k
      · subst h
        simp [setStr, lookupStr, List.find?]
      · have hb : (p1 == k) = false := by simpa using h
        simp [setStr, lookupStr, List.find?, hb, h]
    · have hbp : (p1 == k0) = false := by simpa using hp
      by_cases h : p1 = k
      · subst h
        have hne : ¬ k0 = p1 := fun hh => hp hh.symm
        simp [setStr, lookupStr, List.find?, hbp, hne]
      · have hbk : (p1 == k) = false := by simpa using h
        simp only [setStr, lookupStr] at ih ⊢
        simp [hbp, hbk, List.find?, ih]

/-- A non-empty value stored in `grp_fields` survives the rest of a
successful propagation scan. -/
theorem propagateScan_persist (l : List (String × String × Option String)) :
    ∀ gf out k w, propagateScan gf l = Except.ok out → lookupStr gf k = some w →
      w ≠ "" → lookupStr out k = some w := by
  induction l with
  | nil =>
    intro gf out k w h hk hw
    cases h
    exact hk
  | cons trip rest ih =>
    intro gf out k w h hk hw
    obtain ⟨r0, k0, v0?⟩ := trip
    cases v0? with
    | none => exact ih gf out k w h hk hw
    | some v0 =>
      unfold propagateScan at h
      cases hl : lookupStr gf k0 with
      | some old =>
        rw [hl] at h
        by_cases ho : old = ""
        · subst ho
          simp only [ne_eq, not_true_eq_false, if_false] at h
          have hkk : ¬ k0 = k := by
            intro hkk
            subst hkk
            rw [hl] at hk
            exact hw (by injection hk with hh; exact hh.symm)
          refine ih _ out k w h ?_ hw
          rw [lookupStr_setStr, if_neg hkk]
          exact hk
        · simp only [ne_eq, ho, not_false_eq_true, if_true] at h
          by_cases hv : v0 = old
          · rw [if_pos hv] at h
            exact ih gf out k w h hk hw
          · rw [if_neg hv] at h
            cases h
      | none =>
        rw [hl] at h
        have hkk : ¬ k0 = k := by
          intro hkk
          subst hkk
          rw [hl] at hk
          cases hk
        refine ih _ out k w h ?_ hw
        rw [lookupStr_setStr, if_neg hkk]
        exact hk

/-- Every non-empty value occurring in a successfully scanned triple list is
the value the final `grp_fields` stores for its key. -/
theorem propagateScan_stores (l : List (String × String × Option String)) :
    ∀ gf out, propagateScan gf l = Except.ok out →
      ∀ r k v, (r, k, some v) ∈ l → v ≠ "" → lookupStr out k = some v := by
  induction l with
  | nil =>
    intro gf out h r k v hm
    cases hm
  | cons trip rest ih =>
    intro gf out h r k v hm hv
    rcases List.mem_cons.mp hm with hhead | htail
    · -- the head triple is (r, k, some v)
      subst hhead
      unfold propagateScan at h
      cases hl : lookupStr gf k with
      | some old =>
        rw [hl] at h
        by_cases ho : old = ""
        · subst ho
          simp only [ne_eq, not_true_eq_false, if_false] at h
          refine propagateScan_persist rest _ out k v h ?_ hv
          rw [lookupStr_setStr, if_pos rfl]
        · simp only [ne_eq, ho, not_false_eq_true, if_true] at h
          by_cases hveq : v = old
          · rw [if_pos hveq] at h
            rw [hveq]
            exact propagateScan_persist rest _ out k old h hl (hveq ▸ hv)
          · rw [if_neg hveq] at h
            cases h
      | none =>
        rw [hl] at h
        refine propagateScan_persist rest _ out k v h ?_ hv
        rw [lookupStr_setStr, if_pos rfl]
    · -- the triple occurs later in the list
      obtain ⟨r0, k0, v0?⟩ := trip
      cases v0? with
      | none =>
        unfold propagateScan at h
        exact ih gf out h r k v htail hv
      | some v0 =>
        unfold propagateScan at h
        cases hl : lookupStr gf k0 with
        | some old =>
          rw [hl] at h
          by_cases ho : old = ""
          · subst ho
            simp only [ne_eq, not_true_eq_false, if_false] at h
            exact ih _ out h r k v htail hv
          · simp only [ne_eq, ho, not_false_eq_true, if_true] at h
            by_cases hveq : v0 = old
            · rw [if_pos hveq] at h
              exact ih gf out h r k v htail hv
            · rw [if_neg hveq] at h
              cases h
        | none =>
          rw [hl] at h
          exact ih _ out h r k v htail hv

/-- A looked-up value corresponds to a member pair of the record. -/
theorem rget_some_mem (rec : Record) (k : String) (v : String)
    (h : rget rec k = some v) : (k, some v) ∈ rec := by
  unfold rget at h
  cases hf : rec.find? (fun p => p.1 == k) with
  | none => rw [hf] at h; cases h
  | some p =>
    rw [hf] at h
    have hm := List.mem_of_find?_eq_some hf
    have hp := List.find?_some hf
    obtain ⟨p1, p2⟩ := p
    have h1 : p1 = k := by simpa using hp
    have h2 : p2 = some v := by simpa using h
    subst h1
    rw [← h2]
    exact hm

/-- Each group returned by `propagateAll` comes from a refined group via
`propagateGroup`. -/
theorem propagateAll_mem (components : RecordSet) :
    ∀ (l : List RefGroup) (out : List IdenticalComponents),
      propagateAll components l = Except.ok out →
      ∀ y ∈ out, ∃ x ∈ l, propagateGroup components x = Except.ok y := by
  intro l
  induction l with
  | nil =>
    intro out h y hy
    cases h
    cases hy
  | cons g rest ih =>
    intro out h y hy
    unfold propagateAll at h
    cases hg : propagateGroup components g with
    | error e => rw [hg] at h; cases h
    | ok z =>
      rw [hg] at h
      cases hr : propagateAll components rest with
      | error e => rw [hr] at h; cases h
      | ok outs =>
        rw [hr] at h
        injection h with hout
        subst hout
        rcases List.mem_cons.mp hy with hz | hmem
        · exact ⟨g, List.mem_cons_self g rest, hz ▸ hg⟩
        · obtain ⟨x, hx, hxy⟩ := ih outs hr y hmem
          exact ⟨x, List.mem_cons_of_mem g hx, hxy⟩

/-- A successful `propagateGroup` keeps the refined group's designators and
returns the scanned field map. -/
theorem propagateGroup_ok (components : RecordSet) (g : RefGroup)
    (y : IdenticalComponents) (h : propagateGroup components g = Except.ok y) :
    y.refs = g.refs ∧
      propagateScan [] (groupTriples components g.refs) = Except.ok y.fields := by
  unfold propagateGroup at h
  cases hs : propagateScan [] (groupTriples components g.refs) with
  | error e => rw [hs] at h; cases h
  | ok gf =>
    rw [hs] at h
    injection h with hy
    subst hy
    exact ⟨rfl, rfl⟩

/-- C4 (amended): when `group_parts` returns normally, then within every
final group any two members' *non-empty* values for the same field agree
(in the record set as it stands after the merge-field rewrite, which
rewrites merged fields identically on all members).  The claim's
"non-null" is corrected to "non-empty": a member value that is the empty
string is silently overwritten by the truthiness test instead of
conflicting (see the counterexample), while any two different non-empty
values for one field make the propagation scan abort with the fatal
`Field value mismatch` error. -/
theorem group_parts_value_agreement (dists : List String) (components : RecordSet)
    (fields_merge : List String) (groups : List IdenticalComponents)
    (h : group_parts dists components fields_merge = Except.ok groups) :
    ∃ components2,
      mergePhase dists components
          ((hashGroups (FIELDS_MANF dists ++ fields_merge.map (normalizeField dists))
              components).flatMap (refineGroup components))
          (fields_merge.map (normalizeField dists)) = Except.ok components2 ∧
      ∀ g ∈ groups, ∀ r1 ∈ g.refs, ∀ r2 ∈ g.refs, ∀ k v1 v2,
        rget (recordOf components2 r1) k = some v1 →
        rget (recordOf components2 r2) k = some v2 →
        v1 ≠ "" → v2 ≠ "" → v1 = v2 := by
  unfold group_parts at h
  cases hfind : (FIELDS_MANF dists).find?
      (fun c => (fields_merge.map (normalizeField dists)).contains c) with
  | some c => rw [hfind] at h; cases h
  | none =>
    rw [hfind] at h
    cases hmerge : mergePhase dists components
        ((hashGroups (FIELDS_MANF dists ++ fields_merge.map (normalizeField dists))
            components).flatMap (refineGroup components))
        (fields_merge.map (normalizeField dists)) with
    | error e => rw [hmerge] at h; cases h
    | ok components2 =>
      rw [hmerge] at h
      refine ⟨components2, rfl, ?_⟩
      intro g hg r1 hr1 r2 hr2 k v1 v2 hv1 hv2 hn1 hn2
      obtain ⟨rg, _, hpg⟩ := propagateAll_mem components2 _ groups h g hg
      obtain ⟨hrefs, hscan⟩ := propagateGroup_ok components2 rg g hpg
      have hm1 : (r1, k, some v1) ∈ groupTriples components2 rg.refs := by
        unfold groupTriples
        refine List.mem_flatMap.mpr ⟨r1, hrefs ▸ hr1, ?_⟩
        exact List.mem_map.mpr ⟨(k, some v1), rget_some_mem _ _ _ hv1, rfl⟩
      have hm2 : (r2, k, some v2) ∈ groupTriples components2 rg.refs := by
        unfold groupTriples
        refine List.mem_flatMap.mpr ⟨r2, hrefs ▸ hr2, ?_⟩
        exact List.mem_map.mpr ⟨(k, some v2), rget_some_mem _ _ _ hv2, rfl⟩
      have s1 := propagateScan_stores _ _ _ hscan r1 k v1 hm1 hn1
      have s2 := propagateScan_stores _ _ _ hscan r2 k v2 hm2 hn2
      have := s1.symm.trans s2
      injection this

/-- Witness for C4 (amended) on a record set that groups `R1` and `R2`. -/
theorem group_parts_value_agreement_witness :
    ∃ components2,
      mergePhase [] [("R1", [("value", some "10k")]), ("R2", [("value", some "10k")])]
          ((hashGroups (FIELDS_MANF [] ++ [].map (normalizeField []))
              [("R1", [("value", some "10k")]), ("R2", [("value", some "10k")])]).flatMap
            (refineGroup [("R1", [("value", some "10k")]), ("R2", [("value", some "10k")])]))
          ([].map (normalizeField [])) = Except.ok components2 ∧
      ∀ g ∈ [IdenticalComponents.mk ["R1", "R2"] [none] [("value", "10k")]],
        ∀ r1 ∈ g.refs, ∀ r2 ∈ g.refs, ∀ k v1 v2,
          rget (recordOf components2 r1) k = some v1 →
          rget (recordOf components2 r2) k = some v2 →
          v1 ≠ "" → v2 ≠ "" → v1 = v2 :=
  group_parts_value_agreement [] [("R1", [("value", some "10k")]),
    ("R2", [("value", some "10k")])] []
    [IdenticalComponents.mk ["R1", "R2"] [none] [("value", "10k")]] rfl

/-! ## Claim C3: manf#-cardinality refinement -/

/-- C3: a provisional hash-group of `group_parts` whose distinct `manf#`
set has size 1, or size 2 including the absent sentinel, is kept as one
group; every other provisional group is split into exactly one sub-group
per distinct `manf#` value (the absent sentinel included), each sub-group
containing exactly the member designators whose `manf#` equals that
value. -/
theorem group_parts_manf_num_refinement (dists : List String) (components : RecordSet)
    (fields_merge : List String) (g : ProvGroup)
    (hg : g ∈ hashGroups (FIELDS_MANF dists ++ fields_merge.map (normalizeField dists))
      components) :
    ((g.manf_nums.length = 1 ∨ (g.manf_nums.length = 2 ∧ none ∈ g.manf_nums)) →
      refineGroup components g = [⟨g.refs, g.manf_nums⟩]) ∧
    (¬ (g.manf_nums.length = 1 ∨ (g.manf_nums.length = 2 ∧ none ∈ g.manf_nums)) →
      (refineGroup components g).map RefGroup.manf_nums =
        g.manf_nums.map (fun mn => [mn]) ∧
      ∀ sub ∈ refineGroup components g, ∀ mn, sub.manf_nums = [mn] →
        ∀ r, r ∈ sub.refs ↔
          (r ∈ g.refs ∧ rget (recordOf components r) "manf#" = mn)) := by
  constructor
  · intro hsmall
    unfold refineGroup
    rcases hsmall with h1 | h2
    · rw [if_pos h1]
    · rw [if_neg (by omega), if_pos h2]
  · intro hbig
    have hb1 : ¬ g.manf_nums.length = 1 := fun hh => hbig (Or.inl hh)
    have hb2 : ¬ (g.manf_nums.length = 2 ∧ none ∈ g.manf_nums) :=
      fun hh => hbig (Or.inr hh)
    unfold refineGroup
    rw [if_neg hb1, if_neg hb2]
    constructor
    · rw [List.map_map]
      rfl
    · intro sub hsub mn hmn r
      obtain ⟨mn0, _, hsub0⟩ := List.mem_map.mp hsub
      have hmn0 : mn0 = mn := by
        rw [← hsub0] at hmn
        injection hmn
      subst hmn0
      rw [← hsub0]
      constructor
      · intro hr
        have hf := List.mem_filter.mp hr
        exact ⟨hf.1, by simpa using hf.2⟩
      · intro hr
        exact List.mem_filter.mpr ⟨hr.1, by simpa using hr.2⟩

/-- Witness for C3 at a provisional group with the three distinct `manf#`
values `some "A"`, `some "B"` and the absent sentinel. -/
theorem group_parts_manf_num_refinement_witness :
    (((ProvGroup.mk [("value", some "1k")] ["R1", "R2", "R3"]
          [some "A", some "B", none]).manf_nums.length = 1 ∨
      ((ProvGroup.mk [("value", some "1k")] ["R1", "R2", "R3"]
          [some "A", some "B", none]).manf_nums.length = 2 ∧
        none ∈ (ProvGroup.mk [("value", some "1k")] ["R1", "R2", "R3"]
          [some "A", some "B", none]).manf_nums)) →
      refineGroup
        [("R1", [("value", some "1k"), ("manf#", some "A")]),
         ("R2", [("value", some "1k"), ("manf#", some "B")]),
         ("R3", [("value", some "1k")])]
        (ProvGroup.mk [("value", some "1k")] ["R1", "R2", "R3"]
          [some "A", some "B", none]) =
        [⟨["R1", "R2", "R3"], [some "A", some "B", none]⟩]) ∧
    (¬ (((ProvGroup.mk [("value", some "1k")] ["R1", "R2", "R3"]
          [some "A", some "B", none]).manf_nums.length = 1 ∨
        ((ProvGroup.mk [("value", some "1k")] ["R1", "R2", "R3"]
            [some "A", some "B", none]).manf_nums.length = 2 ∧
          none ∈ (ProvGroup.mk [("value", some "1k")] ["R1", "R2", "R3"]
            [some "A", some "B", none]).manf_nums))) →
      (refineGroup
          [("R1", [("value", some "1k"), ("manf#", some "A")]),
           ("R2", [("value", some "1k"), ("manf#", some "B")]),
           ("R3", [("value", some "1k")])]
          (ProvGroup.mk [("value", some "1k")] ["R1", "R2", "R3"]
            [some "A", some "B", none])).map RefGroup.manf_nums =
        (ProvGroup.mk [("value", some "1k")] ["R1", "R2", "R3"]
          [some "A", some "B", none]).manf_nums.map (fun mn => [mn]) ∧
      ∀ sub ∈ refineGroup
          [("R1", [("value", some "1k"), ("manf#", some "A")]),
           ("R2", [("value", some "1k"), ("manf#", some "B")]),
           ("R3", [("value", some "1k")])]
          (ProvGroup.mk [("value", some "1k")] ["R1", "R2", "R3"]
            [some "A", some "B", none]),
        ∀ mn, sub.manf_nums = [mn] →
          ∀ r, r ∈ sub.refs ↔
            (r ∈ (ProvGroup.mk [("value", some "1k")] ["R1", "R2", "R3"]
              [some "A", some "B", none]).refs ∧
              rget (recordOf
                [("R1", [("value", some "1k"), ("manf#", some "A")]),
                 ("R2", [("value", some "1k"), ("manf#", some "B")]),
                 ("R3", [("value", some "1k")])] r) "manf#" = mn)) :=
  group_parts_manf_num_refinement []
    [("R1", [("value", some "1k"), ("manf#", some "A")]),
     ("R2", [("value", some "1k"), ("manf#", some "B")]),
     ("R3", [("value", some "1k")])] []
    (ProvGroup.mk [("value", some "1k")] ["R1", "R2", "R3"] [some "A", some "B", none])
    (by decide)

/-! ## Claim C1: the partition law -/

open scoped List

/-- Adding one designator to the provisional groups adds exactly that
designator to the multiset of all grouped designators. -/
theorem addToGroups_refs_perm (k : List (String × Option String)) (r : String)
    (mn : Option String) (gs : List ProvGroup) :
    ((addToGroups k r mn gs).flatMap ProvGroup.refs).Perm
      (gs.flatMap ProvGroup.refs ++ [r]) := by
  induction gs with
  | nil => simp [addToGroups]
  | cons g rest ih =>
    unfold addToGroups
    by_cases hk : g.key = k
    · rw [if_pos hk]
      simp only [List.flatMap_cons]
      calc (g.refs ++ [r]) ++ rest.flatMap ProvGroup.refs
          = g.refs ++ ([r] ++ rest.flatMap ProvGroup.refs) := by rw [List.append_assoc]
        _ ~ g.refs ++ (rest.flatMap ProvGroup.refs ++ [r]) :=
            List.Perm.append_left _ List.perm_append_comm
        _ = (g.refs ++ rest.flatMap ProvGroup.refs) ++ [r] := by rw [List.append_assoc]
    · rw [if_neg hk]
      simp only [List.flatMap_cons]
      calc g.refs ++ (addToGroups k r mn rest).flatMap ProvGroup.refs
          ~ g.refs ++ (rest.flatMap ProvGroup.refs ++ [r]) := List.Perm.append_left _ ih
        _ = (g.refs ++ rest.flatMap ProvGroup.refs) ++ [r] := by rw [List.append_assoc]

/-- The hashing pass distributes every processed designator into the groups,
each exactly once. -/
theorem hashGroupsGo_refs_perm (excl : List String) (comps : RecordSet) :
    ∀ acc, ((hashGroupsGo excl acc comps).flatMap ProvGroup.refs).Perm
      (acc.flatMap ProvGroup.refs ++ comps.map Prod.fst) := by
  induction comps with
  | nil => intro acc; simp [hashGroupsGo]
  | cons rp rest ih =>
    intro acc
    unfold hashGroupsGo
    calc (hashGroupsGo excl (addToGroups (groupKey excl rp.2) rp.1 (rget rp.2 "manf#") acc)
            rest).flatMap ProvGroup.refs
        ~ (addToGroups (groupKey excl rp.2) rp.1 (rget rp.2 "manf#") acc).flatMap
            ProvGroup.refs ++ rest.map Prod.fst := ih _
      _ ~ (acc.flatMap ProvGroup.refs ++ [rp.1]) ++ rest.map Prod.fst :=
          (addToGroups_refs_perm _ _ _ acc).append_right _
      _ = acc.flatMap ProvGroup.refs ++ (rp :: rest).map Prod.fst := by
          rw [List.append_assoc]; rfl

/-- Embedding of `insertManf` keeps the value list duplicate-free. -/
theorem insertManf_nodup (mn : Option String) (l : List (Option String))
    (h : l.Nodup) : (insertManf mn l).Nodup := by
  unfold insertManf
  by_cases hm : mn ∈ l
  · rw [if_pos hm]; exact h
  · rw [if_neg hm]
    simp [List.nodup_append, h, hm]

/-- The new value is in the inserted list. -/
theorem mem_insertManf_self (mn : Option String) (l : List (Option String)) :
    mn ∈ insertManf mn l := by
  unfold insertManf
  by_cases hm : mn ∈ l
  · rw [if_pos hm]; exact hm
  · rw [if_neg hm]; simp

/-- Old values stay in the inserted list. -/
theorem mem_insertManf_of_mem (x mn : Option String) (l : List (Option String))
    (h : x ∈ l) : x ∈ insertManf mn l := by
  unfold insertManf
  by_cases hm : mn ∈ l
  · rw [if_pos hm]; exact h
  · rw [if_neg hm]; exact List.mem_append_left _ h

/-- Embedding of `addToGroups` keeps every group's `manf#` value list duplicate-free. -/
theorem addToGroups_manf_nodup (k : List (String × Option String)) (r : String)
    (mn : Option String) (gs : List ProvGroup)
    (h : ∀ g ∈ gs, g.manf_nums.Nodup) :
    ∀ g ∈ addToGroups k r mn gs, g.manf_nums.Nodup := by
  induction gs with
  | nil =>
    intro g hg
    simp only [addToGroups, List.mem_singleton] at hg
    subst hg
    simp
  | cons g0 rest ih =>
    intro g hg
    unfold addToGroups at hg
    by_cases hk : g0.key = k
    · rw [if_pos hk] at hg
      rcases List.mem_cons.mp hg with rfl | hmem
      · exact insertManf_nodup _ _ (h g0 (List.mem_cons_self _ _))
      · exact h g (List.mem_cons_of_mem _ hmem)
    · rw [if_neg hk] at hg
      rcases List.mem_cons.mp hg with rfl | hmem
      · exact h g (List.mem_cons_self _ _)
      · exact ih (fun g' hg' => h g' (List.mem_cons_of_mem _ hg')) g hmem

/-- The hashing pass keeps every group's `manf#` value list duplicate-free. -/
theorem hashGroupsGo_manf_nodup (excl : List String) (comps : RecordSet) :
    ∀ acc, (∀ g ∈ acc, g.manf_nums.Nodup) →
      ∀ g ∈ hashGroupsGo excl acc comps, g.manf_nums.Nodup := by
  induction comps with
  | nil =>
    intro acc h
    simpa [hashGroupsGo] using h
  | cons rp rest ih =>
    intro acc h
    unfold hashGroupsGo
    exact ih _ (addToGroups_manf_nodup _ _ _ _ h)

/-- With unique designators, the dictionary lookup returns the record that
was stored with the designator. -/
theorem recordOf_eq_of_mem (components : RecordSet)
    (hnd : (components.map Prod.fst).Nodup) (r : String) (rec : Record)
    (hm : (r, rec) ∈ components) : recordOf components r = rec := by
  induction components with
  | nil => cases hm
  | cons p rest ih =>
    obtain ⟨p1, p2⟩ := p
    simp only [List.map_cons, List.nodup_cons] at hnd
    rcases List.mem_cons.mp hm with heq | hmem
    · cases heq
      unfold recordOf
      simp [List.find?]
    · have hr : (p1 == r) = false := by
        have : ¬ p1 = r := by
          intro hh
          subst hh
          exact hnd.1 (List.mem_map.mpr ⟨(p1, rec), hmem, rfl⟩)
        simpa using this
      unfold recordOf at ih ⊢
      simp only [List.find?, hr]
      exact ih hnd.2 hmem

/-- Embedding of `addToGroups` preserves "every member's `manf#` value is recorded in its
group", where `κ` is the `manf#` of a designator. -/
theorem addToGroups_manf_mem (κ : String → Option String)
    (k : List (String × Option String)) (r : String) (mn : Option String)
    (gs : List ProvGroup) (hmn : κ r = mn)
    (h : ∀ g ∈ gs, ∀ x ∈ g.refs, κ x ∈ g.manf_nums) :
    ∀ g ∈ addToGroups k r mn gs, ∀ x ∈ g.refs, κ x ∈ g.manf_nums := by
  induction gs with
  | nil =>
    intro g hg x hx
    simp only [addToGroups, List.mem_singleton] at hg
    subst hg
    simp only [List.mem_singleton] at hx
    subst hx
    simp [hmn]
  | cons g0 rest ih =>
    intro g hg x hx
    unfold addToGroups at hg
    by_cases hk : g0.key = k
    · rw [if_pos hk] at hg
      rcases List.mem_cons.mp hg with rfl | hmem
      · simp only [List.mem_append, List.mem_singleton] at hx
        rcases hx with hx0 | rfl
        · exact mem_insertManf_of_mem _ _ _ (h g0 (List.mem_cons_self _ _) x hx0)
        · rw [hmn]
          exact mem_insertManf_self _ _
      · exact h g (List.mem_cons_of_mem _ hmem) x hx
    · rw [if_neg hk] at hg
      rcases List.mem_cons.mp hg with rfl | hmem
      · exact h g (List.mem_cons_self _ _) x hx
      · exact ih (fun g' hg' => h g' (List.mem_cons_of_mem _ hg')) g hmem x hx

/-- The hashing pass preserves the same invariant over the whole scan. -/
theorem hashGroupsGo_manf_mem (excl : List String) (κ : String → Option String) :
    ∀ (comps : RecordSet) (acc : List ProvGroup),
      (∀ rp ∈ comps, rget rp.2 "manf#" = κ rp.1) →
      (∀ g ∈ acc, ∀ x ∈ g.refs, κ x ∈ g.manf_nums) →
      ∀ g ∈ hashGroupsGo excl acc comps, ∀ x ∈ g.refs, κ x ∈ g.manf_nums := by
  intro comps
  induction comps with
  | nil =>
    intro acc _ h
    simpa [hashGroupsGo] using h
  | cons rp rest ih =>
    intro acc hκ h
    unfold hashGroupsGo
    exact ih _ (fun q hq => hκ q (List.mem_cons_of_mem _ hq))
      (addToGroups_manf_mem κ _ _ _ _ (hκ rp (List.mem_cons_self _ _)).symm h)

/-- Pointwise-equal functions give equal `flatMap`s. -/
theorem flatMap_congr' {α β : Type} (l : List α) (f g : α → List β)
    (h : ∀ x ∈ l, f x = g x) : l.flatMap f = l.flatMap g := by
  induction l with
  | nil => rfl
  | cons x rest ih =>
    simp only [List.flatMap_cons]
    rw [h x (List.mem_cons_self _ _), ih (fun y hy => h y (List.mem_cons_of_mem _ hy))]

/-- Distributing one extra element into the bucket of its key is a
permutation of consing it, when the keys are distinct. -/
theorem flatMap_if_cons_perm {κ α : Type} [BEq κ] [LawfulBEq κ] (x : α) (F : κ → List α)
    (k0 : κ) (ks : List κ) (hk : k0 ∈ ks) (hnd : ks.Nodup) :
    (ks.flatMap (fun k => if k0 == k then x :: F k else F k)).Perm
      (x :: ks.flatMap F) := by
  induction ks with
  | nil => cases hk
  | cons k1 rest ih =>
    rcases List.mem_cons.mp hk with rfl | hmem
    · simp only [List.flatMap_cons]
      have hb : (k0 == k0) = true := by simp
      rw [hb]
      have hnotin : k0 ∉ rest := (List.nodup_cons.mp hnd).1
      have hcong : rest.flatMap (fun k => if k0 == k then x :: F k else F k) =
          rest.flatMap F := by
        apply flatMap_congr'
        intro y hy
        have : (k0 == y) = false := by
          simp only [beq_eq_false_iff_ne, ne_eq]
          intro hh
          exact hnotin (hh ▸ hy)
        rw [this]
        simp
      rw [hcong]
      simp
    · simp only [List.flatMap_cons]
      by_cases hk1 : k0 = k1
      · exact absurd (hk1 ▸ hmem) (List.nodup_cons.mp hnd).1
      · have hb : (k0 == k1) = false := by simpa using hk1
        rw [hb]
        simp only [Bool.false_eq_true, if_false]
        calc F k1 ++ rest.flatMap (fun k => if k0 == k then x :: F k else F k)
            ~ F k1 ++ (x :: rest.flatMap F) :=
              List.Perm.append_left _ (ih hmem (List.nodup_cons.mp hnd).2)
          _ ~ x :: (F k1 ++ rest.flatMap F) := List.perm_middle

/-- Bucketing a list by the key of each element and concatenating the
buckets permutes the list, when every key occurs in the (duplicate-free)
key list. -/
theorem filter_partition_perm {κ α : Type} [BEq κ] [LawfulBEq κ] (f : α → κ) :
    ∀ (l : List α) (ks : List κ), ks.Nodup → (∀ x ∈ l, f x ∈ ks) →
      (ks.flatMap (fun k => l.filter (fun y => f y == k))).Perm l := by
  intro l
  induction l with
  | nil =>
    intro ks _ _
    have h0 : ks.flatMap (fun k => ([] : List α).filter (fun y => f y == k)) = [] := by
      simp
    rw [h0]
  | cons x rest ih =>
    intro ks hnd hmem
    have hcong : ks.flatMap (fun k => (x :: rest).filter (fun y => f y == k)) =
        ks.flatMap (fun k => if f x == k then x :: rest.filter (fun y => f y == k)
                             else rest.filter (fun y => f y == k)) := by
      apply flatMap_congr'
      intro k _
      simp [List.filter_cons]
    rw [hcong]
    calc _ ~ x :: ks.flatMap (fun k => rest.filter (fun y => f y == k)) :=
          flatMap_if_cons_perm x _ (f x) ks (hmem x (List.mem_cons_self _ _)) hnd
      _ ~ x :: rest :=
          (ih ks hnd (fun y hy => hmem y (List.mem_cons_of_mem _ hy))).cons x

/-- Refinement of one provisional group preserves its designator multiset. -/
theorem refineGroup_refs_perm (components : RecordSet) (g : ProvGroup)
    (hnd : g.manf_nums.Nodup)
    (hmem : ∀ r ∈ g.refs, rget (recordOf components r) "manf#" ∈ g.manf_nums) :
    ((refineGroup components g).flatMap RefGroup.refs).Perm g.refs := by
  unfold refineGroup
  by_cases h1 : g.manf_nums.length = 1
  · rw [if_pos h1]; simp
  · rw [if_neg h1]
    by_cases h2 : g.manf_nums.length = 2 ∧ none ∈ g.manf_nums
    · rw [if_pos h2]; simp
    · rw [if_neg h2]
      have hmap : ((g.manf_nums.map (fun mn =>
          RefGroup.mk (g.refs.filter (fun ref => rget (recordOf components ref) "manf#" == mn))
            [mn])).flatMap RefGroup.refs) =
          g.manf_nums.flatMap (fun mn =>
            g.refs.filter (fun ref => rget (recordOf components ref) "manf#" == mn)) := by
        rw [List.flatMap_map]
      rw [hmap]
      exact filter_partition_perm (fun r => rget (recordOf components r) "manf#")
        g.refs g.manf_nums hnd hmem

/-- Pointwise permutations lift through `flatMap`. -/
theorem flatMap_perm_of_forall {α β : Type} (l : List α) (f g : α → List β)
    (h : ∀ x ∈ l, (f x).Perm (g x)) : (l.flatMap f).Perm (l.flatMap g) := by
  induction l with
  | nil => exact List.Perm.refl _
  | cons x rest ih =>
    simp only [List.flatMap_cons]
    exact (h x (List.mem_cons_self _ _)).append
      (ih (fun y hy => h y (List.mem_cons_of_mem _ hy)))

/-- Embedding of `flatMap` over a concatenation of inner lists. -/
theorem flatMap_flatMap {α β γ : Type} (l : List α) (f : α → List β) (g : β → List γ) :
    (l.flatMap f).flatMap g = l.flatMap (fun x => (f x).flatMap g) := by
  induction l with
  | nil => rfl
  | cons x rest ih =>
    simp only [List.flatMap_cons, List.flatMap_append, ih]

/-- A successful `propagateAll` preserves the designator lists one-to-one. -/
theorem propagateAll_refs_eq (components : RecordSet) :
    ∀ (l : List RefGroup) (out : List IdenticalComponents),
      propagateAll components l = Except.ok out →
      out.map IdenticalComponents.refs = l.map RefGroup.refs := by
  intro l
  induction l with
  | nil =>
    intro out h
    cases h
    rfl
  | cons g rest ih =>
    intro out h
    unfold propagateAll at h
    cases hg : propagateGroup components g with
    | error e => rw [hg] at h; cases h
    | ok z =>
      rw [hg] at h
      cases hr : propagateAll components rest with
      | error e => rw [hr] at h; cases h
      | ok outs =>
        rw [hr] at h
        injection h with hout
        subst hout
        simp only [List.map_cons]
        rw [ih outs hr, (propagateGroup_ok components g z hg).1]

/-- Embedding of `flatMap` as a flattening of a map. -/
theorem flatMap_eq_join_map {α β : Type} (l : List α) (f : α → List β) :
    l.flatMap f = (l.map f).flatten := by
  induction l with
  | nil => rfl
  | cons x rest ih =>
    simp only [List.flatMap_cons, List.map_cons, List.flatten_cons, ih]

/-- C1 (partition law): whenever `group_parts` returns normally on a
record set with unique designators, the concatenation of all returned
groups' `refs` is a permutation of the input designator set — every
designator lands in exactly one group, exactly once, and the union of the
groups is the whole record set. -/
theorem group_parts_partition (dists : List String) (components : RecordSet)
    (fields_merge : List String) (groups : List IdenticalComponents)
    (hnd : (components.map Prod.fst).Nodup)
    (h : group_parts dists components fields_merge = Except.ok groups) :
    (groups.flatMap IdenticalComponents.refs).Perm (components.map Prod.fst) := by
  unfold group_parts at h
  cases hfind : (FIELDS_MANF dists).find?
      (fun c => (fields_merge.map (normalizeField dists)).contains c) with
  | some c => rw [hfind] at h; cases h
  | none =>
    rw [hfind] at h
    cases hmerge : mergePhase dists components
        ((hashGroups (FIELDS_MANF dists ++ fields_merge.map (normalizeField dists))
            components).flatMap (refineGroup components))
        (fields_merge.map (normalizeField dists)) with
    | error e => rw [hmerge] at h; cases h
    | ok components2 =>
      rw [hmerge] at h
      have hmapeq := propagateAll_refs_eq components2 _ groups h
      have hflat : groups.flatMap IdenticalComponents.refs =
          ((hashGroups (FIELDS_MANF dists ++ fields_merge.map (normalizeField dists))
              components).flatMap (refineGroup components)).flatMap RefGroup.refs := by
        rw [flatMap_eq_join_map, flatMap_eq_join_map, hmapeq]
      rw [hflat, flatMap_flatMap]
      have hprovnd := hashGroupsGo_manf_nodup
        (FIELDS_MANF dists ++ fields_merge.map (normalizeField dists)) components []
        (by intro g hg; cases hg)
      have hprovmem := hashGroupsGo_manf_mem
        (FIELDS_MANF dists ++ fields_merge.map (normalizeField dists))
        (fun x => rget (recordOf components x) "manf#") components []
        (by
          intro rp hrp
          show rget rp.2 "manf#" = rget (recordOf components rp.1) "manf#"
          rw [recordOf_eq_of_mem components hnd rp.1 rp.2 hrp])
        (by intro g hg; cases hg)
      calc (hashGroups (FIELDS_MANF dists ++ fields_merge.map (normalizeField dists))
              components).flatMap (fun pg => (refineGroup components pg).flatMap RefGroup.refs)
          ~ (hashGroups (FIELDS_MANF dists ++ fields_merge.map (normalizeField dists))
              components).flatMap ProvGroup.refs := by
            apply flatMap_perm_of_forall
            intro pg hpg
            exact refineGroup_refs_perm components pg (hprovnd pg hpg) (hprovmem pg hpg)
        _ ~ components.map Prod.fst := by
            have := hashGroupsGo_refs_perm
              (FIELDS_MANF dists ++ fields_merge.map (normalizeField dists)) components []
            simpa [hashGroups] using this

/-- Witness for C1 on a two-record set that groups into one group. -/
theorem group_parts_partition_witness :
    ([IdenticalComponents.mk ["R1", "R2"] [none] [("value", "10k")]].flatMap
        IdenticalComponents.refs).Perm
      (([("R1", [("value", some "10k")]),
         ("R2", [("value", some "10k")])] : RecordSet).map Prod.fst) :=
  group_parts_partition [] [("R1", [("value", some "10k")]), ("R2", [("value", some "10k")])]
    [] [IdenticalComponents.mk ["R1", "R2"] [none] [("value", "10k")]] (by decide) rfl

/-! ## `groups_sort` (group sorter) -/

/-- Embedding of `BOM_ORDER`: the reference-prefix priority list for spreadsheet rows. -/
def BOM_ORDER : String := "u,q,d,t,y,x,c,r,s,j,p,cnn,con"

/-- Split on commas (accumulator of the current token, reversed). -/
def splitOnCommaGo : List Char → List Char → List String
  | acc, [] => [String.mk acc.reverse]
  | acc, c :: rest =>
    if c = ',' then String.mk acc.reverse :: splitOnCommaGo [] rest
    else splitOnCommaGo (c :: acc) rest

/-- The split of `BOM_ORDER` into reference-prefix identifiers.  The Python
splitting regex (a comma guarded by look-arounds) matches exactly the
plain commas of this constant, every comma being surrounded by letters. -/
def ref_identifiers : List String := splitOnCommaGo [] BOM_ORDER.data

/-- Python `<` on string lists (the designator-list tie-break):
lexicographic, elements compared with string `<`. -/
def listStrLt : List String → List String → Bool
  | [], [] => false
  | [], _ :: _ => true
  | _ :: _, [] => false
  | a :: as, b :: bs =>
    if pyStrLt a b then true else if pyStrLt b a then false else listStrLt as bs

/-- The default group for out-of-range indexing (indices stay in range). -/
def defaultIC : IdenticalComponents := ⟨[], [], []⟩

/-- The sort key `(manf# is None, refs)` of the group at an index. -/
def groupSortKey (gs : List IdenticalComponents) (i : Nat) : Bool × List String :=
  ((lookupStr (gs.getD i defaultIC).fields "manf#").isNone,
   (gs.getD i defaultIC).refs)

/-- Python `<` on the `(bool, list)` key tuples (`False < True`). -/
def pairKeyLt (p q : Bool × List String) : Bool :=
  if !p.1 && q.1 then true
  else if !q.1 && p.1 then false
  else listStrLt p.2 q.2

/-- Embedding of `for item in matched: order_old.remove(item)` inside a `try/except
ValueError`: remove first occurrences until a removal fails, which aborts
the whole loop. -/
def removeAll : List Nat → List Nat → List Nat
  | old, [] => old
  | old, i :: rest => if i ∈ old then removeAll (old.erase i) rest else old

/-- The lowered `reference` fields of the groups. -/
def lowRefsOf (gs : List IdenticalComponents) : List String :=
  gs.map (fun g => pyLower ((lookupStr g.fields "reference").getD ""))

/-- One identifier step of `groups_sort`: the indices whose reference
matches move from the old order to the end of the new order; with more
than one match they are sorted by `(manf# is None, refs)` first. -/
def groupsSortStep (gs : List IdenticalComponents) (lowRefs : List String)
    (st : List Nat × List Nat) (id : String) : List Nat × List Nat :=
  let matched := (List.range gs.length).filter (fun i => id == lowRefs.getD i "")
  if matched.length > 0 then
    if matched.length > 1 then
      (removeAll st.1 matched,
       st.2 ++ stableSort (fun i j => pairKeyLt (groupSortKey gs i) (groupSortKey gs j))
         matched)
    else (removeAll st.1 matched, st.2 ++ matched)
  else st

/-- Embedding of `groups_sort`: order the groups by the `BOM_ORDER` priority list of
reference prefixes, the unmatched groups keeping their relative order at
the end.  A group with no `reference` field makes Python crash on
`None.lower()`, modelled as `none`. -/
def groups_sort (new_component_groups : List IdenticalComponents) :
    Option (List IdenticalComponents) :=
  if (new_component_groups.map (fun g => lookupStr g.fields "reference")).all
      Option.isSome then
    some (((ref_identifiers.foldl
          (groupsSortStep new_component_groups (lowRefsOf new_component_groups))
          (List.range new_component_groups.length, [])).2 ++
        (ref_identifiers.foldl
          (groupsSortStep new_component_groups (lowRefsOf new_component_groups))
          (List.range new_component_groups.length, [])).1).map
      (fun i => new_component_groups.getD i defaultIC))
  else none

/-! ## Claim C9: `groups_sort` is a permutation -/

/-- Inserting into a sorted prefix is a permutation of consing. -/
theorem insertSorted_perm {α : Type} (lt : α → α → Bool) (x : α) :
    ∀ l : List α, (insertSorted lt x l).Perm (x :: l) := by
  intro l
  induction l with
  | nil => exact List.Perm.refl _
  | cons y ys ih =>
    unfold insertSorted
    by_cases h : lt x y
    · rw [if_pos h]
    · rw [if_neg h]
      calc y :: insertSorted lt x ys ~ y :: (x :: ys) := ih.cons y
        _ ~ x :: y :: ys := List.Perm.swap x y ys

/-- The insertion-sort fold permutes its input. -/
theorem stableSort_foldl_perm {α : Type} (lt : α → α → Bool) :
    ∀ (l acc : List α),
      (l.foldl (fun a x => insertSorted lt x a) acc).Perm (acc ++ l) := by
  intro l
  induction l with
  | nil => intro acc; simp
  | cons x rest ih =>
    intro acc
    simp only [List.foldl_cons]
    calc rest.foldl (fun a y => insertSorted lt y a) (insertSorted lt x acc)
        ~ insertSorted lt x acc ++ rest := ih _
      _ ~ (x :: acc) ++ rest := (insertSorted_perm lt x acc).append_right rest
      _ ~ acc ++ (x :: rest) := List.perm_middle.symm

/-- Embedding of `stableSort` permutes its input. -/
theorem stableSort_perm {α : Type} (lt : α → α → Bool) (l : List α) :
    (stableSort lt l).Perm l := by
  have := stableSort_foldl_perm lt l []
  simpa [stableSort] using this

/-- Embedding of `removeAll` keeps the old order duplicate-free. -/
theorem removeAll_nodup : ∀ (ms old : List Nat), old.Nodup → (removeAll old ms).Nodup := by
  intro ms
  induction ms with
  | nil => intro old h; exact h
  | cons m rest ih =>
    intro old h
    unfold removeAll
    by_cases hm : m ∈ old
    · rw [if_pos hm]; exact ih _ (h.erase m)
    · rw [if_neg hm]; exact h

/-- Removing a duplicate-free sub-multiset splits the old order. -/
theorem removeAll_perm : ∀ (ms old : List Nat), old.Nodup → (∀ x ∈ ms, x ∈ old) →
    ms.Nodup → old.Perm (ms ++ removeAll old ms) := by
  intro ms
  induction ms with
  | nil => intro old _ _ _; simp [removeAll]
  | cons m rest ih =>
    intro old hond hsub hmnd
    unfold removeAll
    have hm : m ∈ old := hsub m (List.mem_cons_self _ _)
    rw [if_pos hm]
    have hsub' : ∀ x ∈ rest, x ∈ old.erase m := by
      intro x hx
      have hxm : x ≠ m := fun hh => (List.nodup_cons.mp hmnd).1 (hh ▸ hx)
      exact (List.mem_erase_of_ne hxm).mpr (hsub x (List.mem_cons_of_mem _ hx))
    calc old ~ m :: old.erase m := List.perm_cons_erase hm
      _ ~ m :: (rest ++ removeAll (old.erase m) rest) :=
          (ih (old.erase m) (hond.erase m) hsub' (List.nodup_cons.mp hmnd).2).cons m
      _ = (m :: rest) ++ removeAll (old.erase m) rest := rfl

/-- Membership after `removeAll`: exactly the unremoved elements remain. -/
theorem mem_removeAll_iff : ∀ (ms old : List Nat), old.Nodup → (∀ x ∈ ms, x ∈ old) →
    ms.Nodup → ∀ i, (i ∈ removeAll old ms ↔ (i ∈ old ∧ i ∉ ms)) := by
  intro ms
  induction ms with
  | nil => intro old _ _ _ i; simp [removeAll]
  | cons m rest ih =>
    intro old hond hsub hmnd i
    unfold removeAll
    have hm : m ∈ old := hsub m (List.mem_cons_self _ _)
    rw [if_pos hm]
    have hsub' : ∀ x ∈ rest, x ∈ old.erase m := by
      intro x hx
      have hxm : x ≠ m := fun hh => (List.nodup_cons.mp hmnd).1 (hh ▸ hx)
      exact (List.mem_erase_of_ne hxm).mpr (hsub x (List.mem_cons_of_mem _ hx))
    rw [ih (old.erase m) (hond.erase m) hsub' (List.nodup_cons.mp hmnd).2 i]
    constructor
    · rintro ⟨hie, hir⟩
      have hh := (List.Nodup.mem_erase_iff hond).mp hie
      refine ⟨hh.2, ?_⟩
      intro hmem
      rcases List.mem_cons.mp hmem with rfl | hmem2
      · exact hh.1 rfl
      · exact hir hmem2
    · rintro ⟨hio, hnm⟩
      have him : i ≠ m := fun hh => hnm (hh ▸ List.mem_cons_self _ _)
      exact ⟨(List.mem_erase_of_ne him).mpr hio,
        fun hh => hnm (List.mem_cons_of_mem _ hh)⟩

/-- Indexing the full range reproduces the list. -/
theorem range_map_getD {α : Type} (l : List α) (d : α) :
    (List.range l.length).map (fun i => l.getD i d) = l := by
  induction l with
  | nil => rfl
  | cons x rest ih =>
    rw [List.length_cons, List.range_succ_eq_map, List.map_cons, List.map_map]
    have hcomp : ((fun i => (x :: rest).getD i d) ∘ Nat.succ) = fun i => rest.getD i d := by
      funext i
      simp
    rw [hcomp, ih]
    simp

/-- The identifier fold of `groups_sort` keeps `new ++ old` a permutation of
the full index range; `done` tracks the already-processed identifiers. -/
theorem groupsSortFold_perm (gs : List IdenticalComponents) (lowRefs : List String) :
    ∀ (ids : List String) (done : List String) (old new : List Nat),
      ids.Nodup → (∀ id ∈ ids, id ∉ done) → old.Nodup →
      (∀ i, i ∈ old ↔ (i ∈ List.range gs.length ∧ lowRefs.getD i "" ∉ done)) →
      (new ++ old).Perm (List.range gs.length) →
      (((ids.foldl (groupsSortStep gs lowRefs) (old, new)).2 ++
        (ids.foldl (groupsSortStep gs lowRefs) (old, new)).1).Perm
        (List.range gs.length)) := by
  intro ids
  induction ids with
  | nil =>
    intro done old new _ _ _ _ hperm
    exact hperm
  | cons id rest ih =>
    intro done old new hnd hdone hold_nd hold_mem hperm
    simp only [List.foldl_cons]
    have hdone' : ∀ id' ∈ rest, id' ∉ done ++ [id] := by
      intro id' hid' hmem
      rcases List.mem_append.mp hmem with h1 | h2
      · exact hdone id' (List.mem_cons_of_mem _ hid') h1
      · rcases List.mem_singleton.mp h2 with rfl
        exact (List.nodup_cons.mp hnd).1 hid'
    by_cases hm : ((List.range gs.length).filter (fun i => id == lowRefs.getD i "")).length > 0
    · -- at least one match: the matched indices move from old to new
      have hsub : ∀ i ∈ (List.range gs.length).filter (fun i => id == lowRefs.getD i ""),
          i ∈ old := by
        intro i hi
        have hf := List.mem_filter.mp hi
        have hkey : lowRefs.getD i "" = id := by
          have hb : (id == lowRefs.getD i "") = true := hf.2
          exact (eq_of_beq hb).symm
        rw [hold_mem i]
        exact ⟨hf.1, fun hh => hdone id (List.mem_cons_self _ _) (hkey ▸ hh)⟩
      have hmnd : ((List.range gs.length).filter
          (fun i => id == lowRefs.getD i "")).Nodup :=
        (List.nodup_range _).filter _
      have hsplit := removeAll_perm _ old hold_nd hsub hmnd
      have hold'_nd := removeAll_nodup
        ((List.range gs.length).filter (fun i => id == lowRefs.getD i "")) old hold_nd
      have hold'_mem : ∀ i,
          i ∈ removeAll old ((List.range gs.length).filter
            (fun i => id == lowRefs.getD i "")) ↔
          (i ∈ List.range gs.length ∧ lowRefs.getD i "" ∉ done ++ [id]) := by
        intro i
        rw [mem_removeAll_iff _ old hold_nd hsub hmnd i, hold_mem i]
        constructor
        · rintro ⟨⟨hr, hdn⟩, hnm⟩
          refine ⟨hr, ?_⟩
          intro hmem
          rcases List.mem_append.mp hmem with h1 | h2
          · exact hdn h1
          · rcases List.mem_singleton.mp h2 with heq
            refine hnm (List.mem_filter.mpr ⟨hr, ?_⟩)
            show (id == lowRefs.getD i "") = true
            rw [heq]
            exact beq_self_eq_true id
        · rintro ⟨hr, hnm⟩
          refine ⟨⟨hr, fun hh => hnm (List.mem_append_left _ hh)⟩, ?_⟩
          intro hmem
          have hkey : lowRefs.getD i "" = id := by
            have hb : (id == lowRefs.getD i "") = true := (List.mem_filter.mp hmem).2
            exact (eq_of_beq hb).symm
          refine hnm (List.mem_append_right _ ?_)
          rw [hkey]
          exact List.mem_singleton_self id
      have hstep : ∃ X, X.Perm ((List.range gs.length).filter
            (fun i => id == lowRefs.getD i "")) ∧
          groupsSortStep gs lowRefs (old, new) id =
            (removeAll old ((List.range gs.length).filter
              (fun i => id == lowRefs.getD i "")), new ++ X) := by
        unfold groupsSortStep
        rw [if_pos hm]
        by_cases h1 : ((List.range gs.length).filter
            (fun i => id == lowRefs.getD i "")).length > 1
        · exact ⟨_, stableSort_perm _ _, by rw [if_pos h1]⟩
        · exact ⟨_, List.Perm.refl _, by rw [if_neg h1]⟩
      obtain ⟨X, hXp, hstepeq⟩ := hstep
      rw [hstepeq]
      apply ih (done ++ [id]) _ _ (List.nodup_cons.mp hnd).2 hdone' hold'_nd hold'_mem
      calc (new ++ X) ++ removeAll old ((List.range gs.length).filter
              (fun i => id == lowRefs.getD i ""))
          = new ++ (X ++ removeAll old ((List.range gs.length).filter
              (fun i => id == lowRefs.getD i ""))) := by rw [List.append_assoc]
        _ ~ new ++ (((List.range gs.length).filter (fun i => id == lowRefs.getD i "")) ++
              removeAll old ((List.range gs.length).filter
                (fun i => id == lowRefs.getD i ""))) :=
            List.Perm.append_left _ (hXp.append_right _)
        _ ~ new ++ old := List.Perm.append_left _ hsplit.symm
        _ ~ List.range gs.length := hperm
    · -- no match: the state is unchanged
      have hstep : groupsSortStep gs lowRefs (old, new) id = (old, new) := by
        unfold groupsSortStep
        rw [if_neg hm]
      rw [hstep]
      apply ih (done ++ [id]) old new (List.nodup_cons.mp hnd).2 hdone' hold_nd ?_ hperm
      intro i
      rw [hold_mem i]
      constructor
      · rintro ⟨hr, hdn⟩
        refine ⟨hr, ?_⟩
        intro hmem
        rcases List.mem_append.mp hmem with h1 | h2
        · exact hdn h1
        · rcases List.mem_singleton.mp h2 with heq
          have hif : i ∈ (List.range gs.length).filter (fun i => id == lowRefs.getD i "") := by
            refine List.mem_filter.mpr ⟨hr, ?_⟩
            show (id == lowRefs.getD i "") = true
            rw [heq]
            exact beq_self_eq_true id
          exact hm (List.length_pos_of_mem hif)
      · rintro ⟨hr, hdn⟩
        exact ⟨hr, fun hh => hdn (List.mem_append_left _ hh)⟩

/-- C9: when every group's reconciled field map has a `reference` value,
`groups_sort` returns a permutation of its input: same length, same
multiset of groups, none dropped, duplicated or altered. -/
theorem groups_sort_permutation (gs : List IdenticalComponents)
    (h : ∀ g ∈ gs, (lookupStr g.fields "reference").isSome) :
    ∃ gs', groups_sort gs = some gs' ∧ gs'.Perm gs := by
  have hall : ((gs.map (fun g => lookupStr g.fields "reference")).all
      Option.isSome) = true := by
    rw [List.all_eq_true]
    intro x hx
    obtain ⟨g, hg, rfl⟩ := List.mem_map.mp hx
    exact h g hg
  refine ⟨((ref_identifiers.foldl (groupsSortStep gs (lowRefsOf gs))
        (List.range gs.length, [])).2 ++
      (ref_identifiers.foldl (groupsSortStep gs (lowRefsOf gs))
        (List.range gs.length, [])).1).map (fun i => gs.getD i defaultIC), ?_, ?_⟩
  · unfold groups_sort
    rw [if_pos hall]
  · have hperm := groupsSortFold_perm gs (lowRefsOf gs) ref_identifiers []
      (List.range gs.length) [] (by decide) (by intro id _ hmem; cases hmem)
      (List.nodup_range _) (by intro i; simp) (by simp)
    calc ((ref_identifiers.foldl (groupsSortStep gs (lowRefsOf gs))
            (List.range gs.length, [])).2 ++
          (ref_identifiers.foldl (groupsSortStep gs (lowRefsOf gs))
            (List.range gs.length, [])).1).map (fun i => gs.getD i defaultIC)
        ~ (List.range gs.length).map (fun i => gs.getD i defaultIC) := hperm.map _
      _ = gs := range_map_getD gs defaultIC

/-- Witness for C9 on two groups with `reference` values `R` and `C`. -/
theorem groups_sort_permutation_witness :
    ∃ gs', groups_sort [IdenticalComponents.mk ["R1"] [none] [("reference", "R")],
        IdenticalComponents.mk ["C1"] [none] [("reference", "C")]] = some gs' ∧
      gs'.Perm [IdenticalComponents.mk ["R1"] [none] [("reference", "R")],
        IdenticalComponents.mk ["C1"] [none] [("reference", "C")]] :=
  groups_sort_permutation
    [IdenticalComponents.mk ["R1"] [none] [("reference", "R")],
     IdenticalComponents.mk ["C1"] [none] [("reference", "C")]]
    (by decide)
